import Mathlib

/-!
Verification of the ingest pipeline of `sharepoint-chat-agui`.

This file gives a shallow embedding, in Lean 4, of the pure core of the
repository's ingestion pipeline (`src/ingest-function/function_app.py`,
`search_utils.py`, `document_analysis.py`) and proves or refutes the
frozen specification claims about it.

Modelling conventions:
* Python strings are modelled as `List Char` (with `String` wrappers at the
  public entry points); Python `str` helpers (`strip`, `splitlines`,
  `split`, slicing, `rstrip`) are re-implemented with the semantics of
  CPython 3.11 for the character sets that can actually occur
  (ASCII plus the usual Unicode whitespace/line-break sets).
* Machine arithmetic does not occur in the pipeline: all counters are
  Python `int`, modelled as `Nat`/`Int`.
* External, non-deterministic collaborators are passed as explicit
  parameters: the LLM call result (`Except`), the map-reduce summariser,
  tiktoken's token counter, `json.dumps`-based size estimation, and the
  timestamp used by the no-locator fallback.  SHA-256, which the identifier
  generator uses, is implemented in full (FIPS 180-4) so that identifier
  claims are about the real hash.
-/

namespace SPChat

/-! ## Python character classes (CPython 3.11 semantics) -/

/-- Characters stripped by Python `str.strip()` (the `str.isspace` set). -/
def pyIsSpace (c : Char) : Bool :=
  let n := c.toNat
  n = 0x20 || n = 0x9 || n = 0xa || n = 0xb || n = 0xc || n = 0xd ||
  n = 0x1c || n = 0x1d || n = 0x1e || n = 0x1f || n = 0x85 || n = 0xa0 ||
  n = 0x1680 || (0x2000 ≤ n && n ≤ 0x200a) ||
  n = 0x2028 || n = 0x2029 || n = 0x202f || n = 0x205f || n = 0x3000

/-- Line boundaries recognised by Python `str.splitlines()`
(besides the two-character boundary `"\r\n"`). -/
def pyIsLineBreak (c : Char) : Bool :=
  let n := c.toNat
  n = 0xa || n = 0xb || n = 0xc || n = 0xd ||
  n = 0x1c || n = 0x1d || n = 0x1e || n = 0x85 || n = 0x2028 || n = 0x2029

theorem pyIsSpace_of_lineBreak {c : Char} (h : pyIsLineBreak c = true) :
    pyIsSpace c = true := by
  simp only [pyIsLineBreak, Bool.or_eq_true, decide_eq_true_eq] at h
  simp only [pyIsSpace, Bool.or_eq_true, decide_eq_true_eq, Bool.and_eq_true]
  omega

/-! ## Python `strip` family on `List Char` -/

/-- Python `s.lstrip()` restricted to a predicate: drop from the front. -/
def lstripP (p : Char → Bool) (l : List Char) : List Char := l.dropWhile p

/-- Drop from the back (used for `rstrip`). -/
def rstripP (p : Char → Bool) (l : List Char) : List Char := l.rdropWhile p

/-- Python `s.strip()` on a character list. -/
def pyStrip (l : List Char) : List Char := rstripP pyIsSpace (lstripP pyIsSpace l)

/-- Python `s.strip()` on a `String`. -/
def pyStripStr (s : String) : String := String.mk (pyStrip s.data)

theorem lstripP_idem (p : Char → Bool) (l : List Char) :
    lstripP p (lstripP p l) = lstripP p l := by
  simp [lstripP, List.dropWhile_idempotent]

theorem rstripP_idem (p : Char → Bool) (l : List Char) :
    rstripP p (rstripP p l) = rstripP p l := by
  simp [rstripP, List.rdropWhile_idempotent]

/-- The head of a `dropWhile` result does not satisfy the predicate. -/
theorem lstripP_head_not (p : Char → Bool) (l : List Char) (h : lstripP p l ≠ []) :
    p ((lstripP p l).head h) = false :=
  List.head_dropWhile_not p l h

theorem lstripP_eq_self_of_head {p : Char → Bool} {l : List Char}
    (h : ∀ hl : 0 < l.length, ¬ p (l.get ⟨0, hl⟩)) : lstripP p l = l := by
  simpa [lstripP] using List.dropWhile_eq_self_iff.mpr (by simpa using h)

theorem rstripP_eq_self_of_getLast {p : Char → Bool} {l : List Char}
    (h : ∀ hl : l ≠ [], ¬ p (l.getLast hl)) : rstripP p l = l := by
  simpa [rstripP] using List.rdropWhile_eq_self_iff.mpr h

/-- `rstripP` returns a prefix of its argument. -/
theorem rstripP_isPre (p : Char → Bool) (l : List Char) : rstripP p l <+: l := by
  simpa [rstripP] using List.rdropWhile_prefix p l

theorem lstripP_isSuf (p : Char → Bool) (l : List Char) : lstripP p l <:+ l := by
  simpa [lstripP] using List.dropWhile_suffix p

theorem pyStrip_idem (l : List Char) : pyStrip (pyStrip l) = pyStrip l := by
  unfold pyStrip
  have hls : lstripP pyIsSpace (rstripP pyIsSpace (lstripP pyIsSpace l)) =
      rstripP pyIsSpace (lstripP pyIsSpace l) := by
    rcases h : rstripP pyIsSpace (lstripP pyIsSpace l) with _ | ⟨c, t⟩
    · simp [lstripP]
    · have hpre : rstripP pyIsSpace (lstripP pyIsSpace l) <+: lstripP pyIsSpace l :=
        rstripP_isPre _ _
      rw [h] at hpre
      obtain ⟨t₂, ht₂⟩ := hpre
      have hne : lstripP pyIsSpace l ≠ [] := by
        intro hnil; rw [hnil] at ht₂; simp at ht₂
      have hhead : pyIsSpace ((lstripP pyIsSpace l).head hne) = false :=
        lstripP_head_not _ _ hne
      have hc : (lstripP pyIsSpace l).head hne = c := by
        have : lstripP pyIsSpace l = c :: (t ++ t₂) := by rw [← ht₂]; simp
        simp [this]
      rw [hc] at hhead
      rw [← h]
      apply lstripP_eq_self_of_head
      intro hl
      have hget : (rstripP pyIsSpace (lstripP pyIsSpace l)).get ⟨0, hl⟩ = c := by
        simp [h]
      rw [hget, hhead]
      simp
  rw [hls, rstripP_idem]

/-- Members of the strip of a list are members of the list. -/
theorem mem_pyStrip {c : Char} {l : List Char} (h : c ∈ pyStrip l) : c ∈ l := by
  unfold pyStrip at h
  have h1 : c ∈ lstripP pyIsSpace l := ((rstripP_isPre _ _).sublist.subset h)
  exact (lstripP_isSuf pyIsSpace l).sublist.subset h1

/-! ## The embedding batcher (`group_pages_for_batch_embedding`,
`function_app.py` lines 166-203) -/

/-- One page record as produced by `split_markdown_by_pages`.
In Python these are dicts; `batch_index` is added by the batcher (we carry
the field from the start, initialised to 0, since Lean records are total). -/
structure PageRec where
  document_id : String
  page_number : Nat
  markdown_content : String
  token_count : Nat
  batch_index : Nat
  deriving DecidableEq, Repr

/-- The forward scan of `group_pages_for_batch_embedding`: state is
(current batch index, running token count, running item count). -/
def groupPagesGo (maxTok maxItems : Nat) :
    Nat → Nat → Nat → List PageRec → List PageRec
  | _, _, _, [] => []
  | curBatch, curTok, curItems, p :: rest =>
    if maxTok < curTok + p.token_count ∨ maxItems ≤ curItems then
      { p with batch_index := curBatch + 1 } ::
        groupPagesGo maxTok maxItems (curBatch + 1) p.token_count 1 rest
    else
      { p with batch_index := curBatch } ::
        groupPagesGo maxTok maxItems curBatch (curTok + p.token_count) (curItems + 1) rest

/-- `group_pages_for_batch_embedding(pages, max_tokens_per_batch,
max_items_per_batch)`: assigns `batch_index` in one forward pass.
The Python defaults are 7500 and 2000. -/
def group_pages_for_batch_embedding (maxTok maxItems : Nat) (pages : List PageRec) :
    List PageRec :=
  groupPagesGo maxTok maxItems 0 0 0 pages

/-! ## The indexing batcher (`chunk_documents_for_indexing`,
`search_utils.py` lines 59-78).
`estimate_json_size_bytes` (UTF-8 size of `json.dumps`, 0 on serialisation
failure) is abstracted as an arbitrary `size : α → Nat` parameter. -/

def chunkDocsGo {α : Type} (size : α → Nat) (maxDocs maxBytes : Nat) :
    List α → List α → Nat → List (List α)
  | [], current, _ => if current.isEmpty then [] else [current]
  | d :: rest, current, curBytes =>
    if maxDocs < current.length + 1 ∨ (maxBytes < curBytes + size d ∧ current.isEmpty = false) then
      current :: chunkDocsGo size maxDocs maxBytes rest [d] (size d)
    else
      chunkDocsGo size maxDocs maxBytes rest (current ++ [d]) (curBytes + size d)

/-- `chunk_documents_for_indexing(docs, max_docs, max_bytes)`.
Python defaults: 1000 docs, 16 MiB. -/
def chunk_documents_for_indexing {α : Type} (size : α → Nat)
    (maxDocs maxBytes : Nat) (docs : List α) : List (List α) :=
  chunkDocsGo size maxDocs maxBytes docs [] 0

/-! ### Invariants of the embedding batcher -/

/-- Number of pages assigned to batch `k`. -/
def cntAt (k : Nat) (out : List PageRec) : Nat :=
  (out.filter (fun p => p.batch_index == k)).length

/-- Total token count of the pages assigned to batch `k`. -/
def sumAt (k : Nat) (out : List PageRec) : Nat :=
  ((out.filter (fun p => p.batch_index == k)).map PageRec.token_count).sum

@[simp] theorem cntAt_nil (k : Nat) : cntAt k [] = 0 := rfl

@[simp] theorem sumAt_nil (k : Nat) : sumAt k [] = 0 := rfl

theorem cntAt_cons (k : Nat) (p : PageRec) (out : List PageRec) :
    cntAt k (p :: out) = (if k = p.batch_index then 1 else 0) + cntAt k out := by
  unfold cntAt
  rw [List.filter_cons]
  by_cases h : k = p.batch_index
  · have hb : (p.batch_index == k) = true := by simp [h.symm]
    rw [if_pos hb, if_pos h, List.length_cons]
    omega
  · have hb : (p.batch_index == k) = false := by
      simp only [beq_eq_false_iff_ne, ne_eq]
      exact fun hc => h hc.symm
    rw [if_neg (by simp [hb]), if_neg h]
    omega

theorem sumAt_cons (k : Nat) (p : PageRec) (out : List PageRec) :
    sumAt k (p :: out) = (if k = p.batch_index then p.token_count else 0) + sumAt k out := by
  unfold sumAt
  rw [List.filter_cons]
  by_cases h : k = p.batch_index
  · have hb : (p.batch_index == k) = true := by simp [h.symm]
    rw [if_pos hb, if_pos h, List.map_cons, List.sum_cons]
  · have hb : (p.batch_index == k) = false := by
      simp only [beq_eq_false_iff_ne, ne_eq]
      exact fun hc => h hc.symm
    rw [if_neg (by simp [hb]), if_neg h]
    omega

/-- Every page emitted by the batcher from state `b` lands in a batch `≥ b`. -/
theorem groupPagesGo_le_batch (maxTok maxItems : Nat) :
    ∀ (rest : List PageRec) (b tok items : Nat),
      ∀ p ∈ groupPagesGo maxTok maxItems b tok items rest, b ≤ p.batch_index := by
  intro rest
  induction rest with
  | nil => intro b tok items p hp; simp [groupPagesGo] at hp
  | cons q rest ih =>
    intro b tok items p hp
    rw [groupPagesGo] at hp
    split at hp
    · rcases List.mem_cons.mp hp with h | h
      · subst h; simp
      · exact Nat.le_of_succ_le (ih (b + 1) q.token_count 1 p h)
    · rcases List.mem_cons.mp hp with h | h
      · subst h; simp
      · exact ih b (tok + q.token_count) (items + 1) p h

/-- Batches strictly below the current batch index receive nothing more. -/
theorem cntAt_groupPagesGo_lt (maxTok maxItems : Nat) (rest : List PageRec)
    (b tok items k : Nat) (hk : k < b) :
    cntAt k (groupPagesGo maxTok maxItems b tok items rest) = 0 ∧
    sumAt k (groupPagesGo maxTok maxItems b tok items rest) = 0 := by
  have hfil : (groupPagesGo maxTok maxItems b tok items rest).filter
      (fun p => p.batch_index == k) = [] := by
    rw [List.filter_eq_nil_iff]
    intro p hp
    have := groupPagesGo_le_batch maxTok maxItems rest b tok items p hp
    simp only [beq_iff_eq]
    omega
  constructor <;> simp [cntAt, sumAt, hfil]

/-- Batch indices are emitted in non-decreasing order. -/
theorem groupPagesGo_chain (maxTok maxItems : Nat) :
    ∀ (rest : List PageRec) (b tok items : Nat),
      List.Chain' (· ≤ ·)
        ((groupPagesGo maxTok maxItems b tok items rest).map PageRec.batch_index) := by
  intro rest
  induction rest with
  | nil => intro b tok items; simp [groupPagesGo]
  | cons q rest ih =>
    intro b tok items
    rw [groupPagesGo]
    split
    · rw [List.map_cons, List.chain'_cons']
      refine ⟨?_, ih (b + 1) q.token_count 1⟩
      intro y hy
      rcases hrec : groupPagesGo maxTok maxItems (b + 1) q.token_count 1 rest with _ | ⟨r, rs⟩
      · rw [hrec] at hy; simp at hy
      · rw [hrec] at hy
        simp only [List.map_cons, List.head?_cons, Option.mem_def, Option.some_inj] at hy
        subst hy
        have : r ∈ groupPagesGo maxTok maxItems (b + 1) q.token_count 1 rest := by
          rw [hrec]; exact List.mem_cons_self r rs
        simpa using groupPagesGo_le_batch maxTok maxItems rest (b + 1) q.token_count 1 r this
    · rw [List.map_cons, List.chain'_cons']
      refine ⟨?_, ih b (tok + q.token_count) (items + 1)⟩
      intro y hy
      rcases hrec : groupPagesGo maxTok maxItems b (tok + q.token_count) (items + 1) rest
        with _ | ⟨r, rs⟩
      · rw [hrec] at hy; simp at hy
      · rw [hrec] at hy
        simp only [List.map_cons, List.head?_cons, Option.mem_def, Option.some_inj] at hy
        subst hy
        have : r ∈ groupPagesGo maxTok maxItems b (tok + q.token_count) (items + 1) rest := by
          rw [hrec]; exact List.mem_cons_self r rs
        simpa using
          groupPagesGo_le_batch maxTok maxItems rest b (tok + q.token_count) (items + 1) r this

/-- Core size invariant of the embedding batcher, generalised over the scan
state: counting the in-flight batch `b`'s accumulated `items`/`tok`, every
batch respects the item ceiling, and respects the token ceiling unless it
consists of a single page. -/
theorem groupPagesGo_bounds (maxTok maxItems : Nat) :
    ∀ (rest : List PageRec) (b tok items : Nat),
      1 ≤ maxItems → items ≤ maxItems → (tok ≤ maxTok ∨ items = 1) →
      ∀ k,
        cntAt k (groupPagesGo maxTok maxItems b tok items rest) +
            (if k = b then items else 0) ≤ maxItems ∧
        (sumAt k (groupPagesGo maxTok maxItems b tok items rest) +
            (if k = b then tok else 0) ≤ maxTok ∨
          cntAt k (groupPagesGo maxTok maxItems b tok items rest) +
            (if k = b then items else 0) = 1) := by
  intro rest
  induction rest with
  | nil =>
    intro b tok items _ hitems htok k
    by_cases hk : k = b <;> simp [groupPagesGo, hk, hitems, htok]
  | cons q rest ih =>
    intro b tok items hmi hitems htok k
    rw [groupPagesGo]
    split
    · -- a new batch `b+1` is opened for `q`
      have ihq := ih (b + 1) q.token_count 1 hmi hmi (Or.inr rfl)
      have hbi : ({ q with batch_index := b + 1 } : PageRec).batch_index = b + 1 := rfl
      have htc : ({ q with batch_index := b + 1 } : PageRec).token_count = q.token_count := rfl
      rw [cntAt_cons, sumAt_cons, hbi, htc]
      by_cases hk : k = b
      · subst hk
        have hne : ¬ (k = k + 1) := by omega
        rw [if_neg hne, if_neg hne, if_pos rfl, if_pos rfl]
        have hz := cntAt_groupPagesGo_lt maxTok maxItems rest (k + 1) q.token_count 1 k
          (by omega)
        rw [hz.1, hz.2]
        constructor
        · omega
        · rcases htok with h | h
          · left; omega
          · right; omega
      · by_cases hk1 : k = b + 1
        · subst hk1
          rw [if_pos rfl, if_pos rfl, if_neg hk, if_neg hk]
          have hthis := ihq (b + 1)
          rw [if_pos rfl, if_pos rfl] at hthis
          constructor
          · omega
          · rcases hthis.2 with h | h
            · left; omega
            · right; omega
        · rw [if_neg hk1, if_neg hk1, if_neg hk, if_neg hk]
          have hthis := ihq k
          rw [if_neg hk1, if_neg hk1] at hthis
          constructor
          · omega
          · rcases hthis.2 with h | h
            · left; omega
            · right; omega
    · -- `q` joins the current batch `b`
      rename_i hcond
      push_neg at hcond
      obtain ⟨htokle, hitemslt⟩ := hcond
      have ihq := ih b (tok + q.token_count) (items + 1) hmi (by omega) (Or.inl (by omega))
      have hbi : ({ q with batch_index := b } : PageRec).batch_index = b := rfl
      have htc : ({ q with batch_index := b } : PageRec).token_count = q.token_count := rfl
      rw [cntAt_cons, sumAt_cons, hbi, htc]
      by_cases hk : k = b
      · subst hk
        rw [if_pos rfl, if_pos rfl, if_pos rfl, if_pos rfl]
        have hthis := ihq k
        rw [if_pos rfl, if_pos rfl] at hthis
        constructor
        · omega
        · rcases hthis.2 with h | h
          · left; omega
          · right; omega
      · rw [if_neg hk, if_neg hk, if_neg hk, if_neg hk]
        have hthis := ihq k
        rw [if_neg hk, if_neg hk] at hthis
        constructor
        · omega
        · rcases hthis.2 with h | h
          · left; omega
          · right; omega

/-! ### Invariants of the indexing batcher -/

theorem chunkDocsGo_join {α : Type} (size : α → Nat) (maxDocs maxBytes : Nat) :
    ∀ (docs current : List α) (curBytes : Nat),
      (chunkDocsGo size maxDocs maxBytes docs current curBytes).flatten = current ++ docs := by
  intro docs
  induction docs with
  | nil =>
    intro current curBytes
    rcases current with _ | ⟨c, cs⟩ <;> simp [chunkDocsGo]
  | cons d rest ih =>
    intro current curBytes
    rw [chunkDocsGo]
    split
    · simp [List.flatten_cons, ih [d] (size d)]
    · simp [ih (current ++ [d]) (curBytes + size d)]

theorem chunkDocsGo_bounds {α : Type} (size : α → Nat) (maxDocs maxBytes : Nat) :
    ∀ (docs current : List α) (curBytes : Nat),
      1 ≤ maxDocs → current.length ≤ maxDocs →
      curBytes = (current.map size).sum →
      ((current.map size).sum ≤ maxBytes ∨ ∃ d, current = [d] ∧ maxBytes < size d) →
      ∀ batch ∈ chunkDocsGo size maxDocs maxBytes docs current curBytes,
        batch.length ≤ maxDocs ∧
        ((batch.map size).sum ≤ maxBytes ∨ ∃ d, batch = [d] ∧ maxBytes < size d) := by
  intro docs
  induction docs with
  | nil =>
    intro current curBytes _ hlen _ hbytes batch hb
    rw [chunkDocsGo] at hb
    split at hb
    · simp at hb
    · rcases List.mem_singleton.mp hb with rfl
      exact ⟨hlen, hbytes⟩
  | cons d rest ih =>
    intro current curBytes hmd hlen hcur hbytes batch hb
    rw [chunkDocsGo] at hb
    split at hb
    · rcases List.mem_cons.mp hb with rfl | hmem
      · exact ⟨hlen, hbytes⟩
      · refine ih [d] (size d) hmd (by simpa using hmd) (by simp) ?_ batch hmem
        by_cases hsz : size d ≤ maxBytes
        · left; simpa using hsz
        · right; exact ⟨d, rfl, by omega⟩
    · rename_i hcond
      push_neg at hcond
      obtain ⟨hlen2, hbig⟩ := hcond
      refine ih (current ++ [d]) (curBytes + size d) hmd
        (by simp; omega) (by simp [hcur]) ?_ batch hb
      by_cases hempty : current.isEmpty
      · have : current = [] := List.isEmpty_iff.mp hempty
        subst this
        by_cases hsz : size d ≤ maxBytes
        · left; simpa using hsz
        · right; exact ⟨d, rfl, by omega⟩
      · have hle : curBytes + size d ≤ maxBytes := by
          by_contra hgt
          have h2 := hbig (by omega)
          simp only [ne_eq, Bool.not_eq_false] at h2
          exact hempty h2
        left
        simp [hcur] at hle ⊢
        omega

/-! ## Python `splitlines`, newline-join, blank-run collapsing -/

/-- The scanner behind Python `str.splitlines()`: `acc` holds the current
line reversed.  A trailing line terminator does not open a final empty
line, and `"\r\n"` counts as one boundary. -/
def splitlinesGo : List Char → List Char → List (List Char)
  | [], acc => if acc.isEmpty then [] else [acc.reverse]
  | '\r' :: '\n' :: rest, acc => acc.reverse :: splitlinesGo rest []
  | c :: rest, acc =>
    if pyIsLineBreak c then acc.reverse :: splitlinesGo rest []
    else splitlinesGo rest (c :: acc)

/-- Python `s.splitlines()`. -/
def pySplitlines (l : List Char) : List (List Char) := splitlinesGo l []

/-- `"\n".join(lines)`. -/
def joinNL : List (List Char) → List Char
  | [] => []
  | [a] => a
  | a :: rest => a ++ '\n' :: joinNL rest

/-- The scanner behind `re.sub(r"\n{3,}", "\n\n", s)`: `n` counts the
newlines of the run being read; a finished run is emitted capped at two. -/
def collapseAux : Nat → List Char → List Char
  | n, [] => List.replicate (min n 2) '\n'
  | n, c :: rest =>
    if c = '\n' then collapseAux (n + 1) rest
    else List.replicate (min n 2) '\n' ++ c :: collapseAux 0 rest

/-- `re.sub(r"\n{3,}", "\n\n", s)`. -/
def collapseBlankRuns (l : List Char) : List Char := collapseAux 0 l

/-! ## The summary sanitiser (`_clean_summary_text`,
`document_analysis.py` lines 265-304) -/

/-- The ASCII single-quote character. -/
def squote : Char := Char.ofNat 39

/-- The characters of the Python call `l.strip('"“”')`. -/
def isQuoteStrip (c : Char) : Bool := c = '"' || c = '“' || c = '”'

/-- Strip one layer of matching wrapping quotes (ASCII double, curly
double, or ASCII single) and re-strip whitespace — the shared pattern of
the whole-text and per-line treatment in `_clean_summary_text`. -/
def unwrapQuotes (l : List Char) : List Char :=
  match l.head?, l.getLast? with
  | some a, some b =>
    if (a = '"' ∧ b = '"') ∨ (a = '“' ∧ b = '”') ∨ (a = squote ∧ b = squote) then
      pyStrip (l.drop 1).dropLast
    else l
  | _, _ => l

/-- `l.strip('"“”')`. -/
def stripQuoteEnds (l : List Char) : List Char :=
  rstripP isQuoteStrip (lstripP isQuoteStrip l)

/-- The per-line treatment of `_clean_summary_text`. -/
def cleanLine (line : List Char) : List Char :=
  let l1 := pyStrip line
  let l2 := unwrapQuotes l1
  let l3 := stripQuoteEnds l2
  l3.map (fun c => if c = '"' then squote else c)

/-- `_clean_summary_text` on a character list. -/
def cleanChars (text : List Char) : List Char :=
  let s1 := pyStrip text
  let s2 := unwrapQuotes s1
  let lines := pySplitlines s2
  let s3 := joinNL (lines.map cleanLine)
  pyStrip (collapseBlankRuns s3)

/-- `_clean_summary_text(text)` (`document_analysis.py` lines 265-304).
The `isinstance(text, str)` guard always holds for our `String` input. -/
def _clean_summary_text (s : String) : String := String.mk (cleanChars s.data)

/-! ### Equations and basic lemmas for the sanitiser's string machinery -/

@[simp] theorem joinNL_nil : joinNL [] = [] := rfl

@[simp] theorem joinNL_single (a : List Char) : joinNL [a] = a := rfl

theorem joinNL_cons_of_ne (a : List Char) {L : List (List Char)} (h : L ≠ []) :
    joinNL (a :: L) = a ++ '\n' :: joinNL L := by
  rcases L with _ | ⟨b, L'⟩
  · exact absurd rfl h
  · rfl

@[simp] theorem splitlinesGo_nil (acc : List Char) :
    splitlinesGo [] acc = if acc.isEmpty then [] else [acc.reverse] := rfl

theorem splitlinesGo_crlf (rest acc : List Char) :
    splitlinesGo ('\r' :: '\n' :: rest) acc = acc.reverse :: splitlinesGo rest [] := rfl

theorem splitlinesGo_nl (rest acc : List Char) :
    splitlinesGo ('\n' :: rest) acc = acc.reverse :: splitlinesGo rest [] := rfl

theorem splitlinesGo_cons_break {c : Char} (rest acc : List Char)
    (hne : ∀ r, c = '\r' → rest = '\n' :: r → False) (hbrk : pyIsLineBreak c = true) :
    splitlinesGo (c :: rest) acc = acc.reverse :: splitlinesGo rest [] := by
  rw [splitlinesGo.eq_def]
  rcases rest with _ | ⟨d, rest'⟩
  · simp [hbrk]
  · split
    · rename_i heq
      exact absurd heq (by simp)
    · rename_i heq
      injection heq with h1 h2
      injection h2 with h3 h4
      exact absurd (by rw [h3] : d :: rest' = '\n' :: rest') (fun hc => hne rest' h1 hc)
    · rename_i heq
      injection heq with h1 h2
      subst h1
      subst h2
      rw [if_pos hbrk]

theorem splitlinesGo_cons_nonbreak {c : Char} (rest acc : List Char)
    (hbrk : pyIsLineBreak c = false) :
    splitlinesGo (c :: rest) acc = splitlinesGo rest (c :: acc) := by
  have hcr : c ≠ '\r' := by
    intro hc; subst hc; exact absurd hbrk (by decide)
  rw [splitlinesGo.eq_def]
  rcases rest with _ | ⟨d, rest'⟩
  · simp [hbrk]
  · split
    · rename_i heq
      exact absurd heq (by simp)
    · rename_i heq
      injection heq with h1 h2
      exact absurd h1 hcr
    · rename_i heq
      injection heq with h1 h2
      subst h1
      subst h2
      rw [if_neg (by simp [hbrk])]

/-- A nonempty input (or pending accumulator) yields at least one line. -/
theorem splitlinesGo_ne_nil (l acc : List Char) (h : l ≠ [] ∨ acc ≠ []) :
    splitlinesGo l acc ≠ [] := by
  induction l, acc using splitlinesGo.induct with
  | case1 acc hacc =>
    rcases h with h | h
    · exact absurd rfl h
    · exact absurd (List.isEmpty_iff.mp hacc) h
  | case2 acc hacc => simp [splitlinesGo_nil, hacc]
  | case3 rest acc ih => rw [splitlinesGo_crlf]; simp
  | case4 c rest acc hne hbrk ih =>
    rw [splitlinesGo_cons_break rest acc hne hbrk]
    simp
  | case5 c rest acc hne hbrk ih =>
    rw [splitlinesGo_cons_nonbreak rest acc (by simpa using hbrk)]
    exact ih (Or.inr (by simp))

/-- Lines produced by `splitlines` contain no line-break characters. -/
theorem splitlinesGo_lines_nonbreak (l acc : List Char)
    (hacc : ∀ c ∈ acc, pyIsLineBreak c = false) :
    ∀ line ∈ splitlinesGo l acc, ∀ c ∈ line, pyIsLineBreak c = false := by
  induction l, acc using splitlinesGo.induct with
  | case1 acc hacc2 => intro line hline; rw [splitlinesGo_nil, if_pos hacc2] at hline; simp at hline
  | case2 acc hacc2 =>
    intro line hline
    rw [splitlinesGo_nil, if_neg hacc2] at hline
    rcases List.mem_singleton.mp hline with rfl
    intro c hc
    exact hacc c (by simpa using hc)
  | case3 rest acc ih =>
    intro line hline
    rw [splitlinesGo_crlf] at hline
    rcases List.mem_cons.mp hline with rfl | h2
    · intro c hc; exact hacc c (by simpa using hc)
    · exact ih (by simp) line h2
  | case4 c rest acc hne hbrk ih =>
    intro line hline
    rw [splitlinesGo_cons_break rest acc hne hbrk] at hline
    rcases List.mem_cons.mp hline with rfl | h2
    · intro c hc; exact hacc c (by simpa using hc)
    · exact ih (by simp) line h2
  | case5 c rest acc hne hbrk ih =>
    intro line hline
    rw [splitlinesGo_cons_nonbreak rest acc (by simpa using hbrk)] at hline
    refine ih ?_ line hline
    intro e he
    rcases List.mem_cons.mp he with rfl | he2
    · simpa using hbrk
    · exact hacc e he2

/-- Characters of the produced lines come from the input or accumulator. -/
theorem splitlinesGo_lines_mem (l acc : List Char) :
    ∀ line ∈ splitlinesGo l acc, ∀ c ∈ line, c ∈ l ∨ c ∈ acc := by
  induction l, acc using splitlinesGo.induct with
  | case1 acc hacc => intro line hline; rw [splitlinesGo_nil, if_pos hacc] at hline; simp at hline
  | case2 acc hacc =>
    intro line hline
    rw [splitlinesGo_nil, if_neg hacc] at hline
    rcases List.mem_singleton.mp hline with rfl
    intro c hc
    exact Or.inr (by simpa using hc)
  | case3 rest acc ih =>
    intro line hline
    rw [splitlinesGo_crlf] at hline
    rcases List.mem_cons.mp hline with rfl | h2
    · intro c hc; exact Or.inr (by simpa using hc)
    · intro c hc
      rcases ih line h2 c hc with h | h
      · exact Or.inl (by simp [h])
      · simp at h
  | case4 c rest acc hne hbrk ih =>
    intro line hline
    rw [splitlinesGo_cons_break rest acc hne hbrk] at hline
    rcases List.mem_cons.mp hline with rfl | h2
    · intro e he; exact Or.inr (by simpa using he)
    · intro e he
      rcases ih line h2 e he with h | h
      · exact Or.inl (by simp [h])
      · simp at h
  | case5 c rest acc hne hbrk ih =>
    intro line hline
    rw [splitlinesGo_cons_nonbreak rest acc (by simpa using hbrk)] at hline
    intro e he
    rcases ih line hline e he with h | h
    · exact Or.inl (by simp [h])
    · rcases List.mem_cons.mp h with rfl | h2
      · exact Or.inl (by simp)
      · exact Or.inr h2

/-- Pushing a line-break-free chunk into the splitlines accumulator. -/
theorem splitlinesGo_append_nonbreak :
    ∀ (x s acc : List Char), (∀ c ∈ x, pyIsLineBreak c = false) →
      splitlinesGo (x ++ s) acc = splitlinesGo s (x.reverse ++ acc) := by
  intro x
  induction x with
  | nil => intro s acc _; simp
  | cons c x' ih =>
    intro s acc hx
    rw [List.cons_append, splitlinesGo_cons_nonbreak _ _ (hx c (by simp))]
    rw [ih s (c :: acc) (fun e he => hx e (by simp [he]))]
    simp

/-- Joining the result of `splitlines` recovers the input, provided the
only line break used is `'\n'` and the input does not end with one. -/
theorem joinNL_splitlinesGo (s acc : List Char)
    (honly : ∀ c ∈ s, pyIsLineBreak c = true → c = '\n')
    (hlast : s.getLast? ≠ some '\n') :
    joinNL (splitlinesGo s acc) = acc.reverse ++ s := by
  induction s, acc using splitlinesGo.induct with
  | case1 acc hacc =>
    rw [splitlinesGo_nil, if_pos hacc]
    simp [List.isEmpty_iff.mp hacc]
  | case2 acc hacc => rw [splitlinesGo_nil, if_neg hacc]; simp
  | case3 rest acc ih =>
    exact absurd (honly '\r' (by simp) (by decide)) (by decide)
  | case4 c rest acc hne hbrk ih =>
    have hcn : c = '\n' := honly c (by simp) hbrk
    subst hcn
    rcases rest with _ | ⟨d, rest'⟩
    · simp at hlast
    · rw [splitlinesGo_cons_break (d :: rest') acc hne hbrk,
        joinNL_cons_of_ne _ (splitlinesGo_ne_nil (d :: rest') [] (Or.inl (by simp)))]
      rw [ih (fun e he hb => honly e (by simp [he]) hb)
        (by rwa [List.getLast?_cons_cons] at hlast)]
      simp
  | case5 c rest acc hne hbrk ih =>
    rw [splitlinesGo_cons_nonbreak rest acc (by simpa using hbrk)]
    have hl2 : rest.getLast? ≠ some '\n' := by
      rcases rest with _ | ⟨d, rest'⟩
      · simp
      · rwa [List.getLast?_cons_cons] at hlast
    rw [ih (fun e he hb => honly e (by simp [he]) hb) hl2]
    simp

/-- `splitlines` is a retraction of `joinNL` on line-break-free lines with
no trailing empty line. -/
theorem pySplitlines_joinNL :
    ∀ (Y : List (List Char)), (∀ line ∈ Y, ∀ c ∈ line, pyIsLineBreak c = false) →
      Y.getLast? ≠ some [] → pySplitlines (joinNL Y) = Y := by
  intro Y
  induction Y with
  | nil => intro _ _; rfl
  | cons y Y' ih =>
    intro hlines hlast
    rcases Y' with _ | ⟨z, Y''⟩
    · have hy : y ≠ [] := by
        intro hnil
        rw [hnil] at hlast
        simp at hlast
      unfold pySplitlines
      rw [joinNL_single, ← List.append_nil y,
        splitlinesGo_append_nonbreak y [] [] (hlines y (by simp)),
        splitlinesGo_nil]
      rw [if_neg (by simpa using hy)]
      simp
    · unfold pySplitlines
      rw [joinNL_cons_of_ne _ (by simp),
        splitlinesGo_append_nonbreak y ('\n' :: joinNL (z :: Y'')) [] (hlines y (by simp)),
        splitlinesGo_nl]
      have ihr := ih (fun line hl c hc => hlines line (by simp [hl]) c hc)
        (by rwa [List.getLast?_cons_cons] at hlast)
      unfold pySplitlines at ihr
      rw [ihr]
      simp

/-- Characters in a `joinNL` come from a line or are `'\n'`. -/
theorem mem_joinNL {c : Char} :
    ∀ {X : List (List Char)}, c ∈ joinNL X → c = '\n' ∨ ∃ line ∈ X, c ∈ line := by
  intro X
  induction X with
  | nil => intro h; simp [joinNL] at h
  | cons a rest ih =>
    intro h
    rcases rest with _ | ⟨b, rest'⟩
    · rw [joinNL_single] at h
      exact Or.inr ⟨a, by simp, h⟩
    · rw [joinNL_cons_of_ne _ (by simp)] at h
      rcases List.mem_append.mp h with h2 | h2
      · exact Or.inr ⟨a, by simp, h2⟩
      · rcases List.mem_cons.mp h2 with rfl | h3
        · exact Or.inl rfl
        · rcases ih h3 with h4 | ⟨line, hl, hcl⟩
          · exact Or.inl h4
          · exact Or.inr ⟨line, by simp [hl], hcl⟩

/-- Characters produced by the blank-run collapse come from the input or
are `'\n'`. -/
theorem mem_collapseAux {c : Char} :
    ∀ (l : List Char) (n : Nat), c ∈ collapseAux n l → c = '\n' ∨ c ∈ l := by
  intro l
  induction l with
  | nil =>
    intro n h
    rw [collapseAux] at h
    exact Or.inl (List.eq_of_mem_replicate h)
  | cons a rest ih =>
    intro n h
    rw [collapseAux] at h
    split at h
    · rename_i ha
      rcases ih (n + 1) h with h2 | h2
      · exact Or.inl h2
      · exact Or.inr (by simp [h2])
    · rcases List.mem_append.mp h with h2 | h2
      · exact Or.inl (List.eq_of_mem_replicate h2)
      · rcases List.mem_cons.mp h2 with rfl | h3
        · exact Or.inr (by simp)
        · rcases ih 0 h3 with h4 | h4
          · exact Or.inl h4
          · exact Or.inr (by simp [h4])

/-! ### Runs of three newlines and the collapse being idempotent there -/

/-- `"\n\n\n"` occurs as a factor (window test). -/
def hasTripleNL : List Char → Bool
  | a :: b :: c :: rest => (a = '\n' && b = '\n' && c = '\n') || hasTripleNL (b :: c :: rest)
  | _ => false

theorem hasTripleNL_tail {a : Char} {l : List Char} (h : hasTripleNL (a :: l) = false) :
    hasTripleNL l = false := by
  rcases l with _ | ⟨b, _ | ⟨c, rest⟩⟩
  · rfl
  · rfl
  · rw [hasTripleNL] at h
    exact (Bool.or_eq_false_iff.mp h).2

theorem hasTripleNL_append_right {x y : List Char} (h : hasTripleNL (x ++ y) = false) :
    hasTripleNL y = false := by
  induction x with
  | nil => exact h
  | cons a x' ih => exact ih (hasTripleNL_tail h)

theorem hasTripleNL_append_left {x y : List Char} (h : hasTripleNL (x ++ y) = false) :
    hasTripleNL x = false := by
  induction x with
  | nil => rfl
  | cons a x' ih =>
    rcases x' with _ | ⟨b, _ | ⟨c, x''⟩⟩
    · rfl
    · rfl
    · rw [List.cons_append, List.cons_append, List.cons_append, hasTripleNL] at h
      rcases Bool.or_eq_false_iff.mp h with ⟨hw, hrec⟩
      rw [hasTripleNL, Bool.or_eq_false_iff]
      exact ⟨hw, ih (by simpa using hrec)⟩

theorem hasTripleNL_replicate_le {k : Nat} (h : k ≤ 2) :
    hasTripleNL (List.replicate k '\n') = false := by
  interval_cases k <;> decide

theorem le_two_of_hasTripleNL_replicate {n : Nat} {s : List Char}
    (h : hasTripleNL (List.replicate n '\n' ++ s) = false) : n ≤ 2 := by
  by_contra hgt
  obtain ⟨m, rfl⟩ : ∃ m, n = m + 3 := ⟨n - 3, by omega⟩
  rw [show List.replicate (m + 3) '\n' = '\n' :: '\n' :: '\n' :: List.replicate m '\n' from rfl,
    List.cons_append, List.cons_append, List.cons_append, hasTripleNL] at h
  simp at h

theorem hasTripleNL_cons_of_ne {c : Char} {t : List Char} (hc : c ≠ '\n')
    (ht : hasTripleNL t = false) : hasTripleNL (c :: t) = false := by
  rcases t with _ | ⟨b, _ | ⟨d, rest⟩⟩
  · rfl
  · rfl
  · rw [hasTripleNL, Bool.or_eq_false_iff]
    exact ⟨by simp [hc], ht⟩

theorem hasTripleNL_repl_cons {k : Nat} {c : Char} {t : List Char} (hk : k ≤ 2)
    (hc : c ≠ '\n') (ht : hasTripleNL t = false) :
    hasTripleNL (List.replicate k '\n' ++ c :: t) = false := by
  interval_cases k
  · exact hasTripleNL_cons_of_ne hc ht
  · rcases t with _ | ⟨d, rest⟩
    · rfl
    · rw [show List.replicate 1 '\n' ++ c :: d :: rest = '\n' :: c :: d :: rest from rfl,
        hasTripleNL, Bool.or_eq_false_iff]
      exact ⟨by simp [hc], hasTripleNL_cons_of_ne hc ht⟩
  · rw [show List.replicate 2 '\n' ++ c :: t = '\n' :: '\n' :: c :: t from rfl,
      hasTripleNL, Bool.or_eq_false_iff]
    refine ⟨by simp [hc], ?_⟩
    rcases t with _ | ⟨d, rest⟩
    · rfl
    · rw [hasTripleNL, Bool.or_eq_false_iff]
      exact ⟨by simp [hc], hasTripleNL_cons_of_ne hc ht⟩

/-- The collapsed string never contains three consecutive newlines. -/
theorem collapseAux_no_triple :
    ∀ (l : List Char) (n : Nat), hasTripleNL (collapseAux n l) = false := by
  intro l
  induction l with
  | nil =>
    intro n
    rw [collapseAux]
    exact hasTripleNL_replicate_le (Nat.min_le_right n 2)
  | cons a rest ih =>
    intro n
    rw [collapseAux]
    split
    · exact ih (n + 1)
    · rename_i ha
      exact hasTripleNL_repl_cons (Nat.min_le_right n 2) ha (ih 0)

/-- On strings without a triple-newline factor, the collapse is the
identity (stated with the pending-run accumulator made explicit). -/
theorem collapseAux_id_of_no_triple :
    ∀ (l : List Char) (n : Nat),
      hasTripleNL (List.replicate n '\n' ++ l) = false →
      collapseAux n l = List.replicate n '\n' ++ l := by
  intro l
  induction l with
  | nil =>
    intro n h
    rw [collapseAux, Nat.min_eq_left (le_two_of_hasTripleNL_replicate h)]
    simp
  | cons a rest ih =>
    intro n h
    rw [collapseAux]
    split
    · rename_i ha
      subst ha
      have hresh : List.replicate n '\n' ++ '\n' :: rest =
          List.replicate (n + 1) '\n' ++ rest := by
        rw [List.replicate_succ', List.append_assoc]
        rfl
      rw [ih (n + 1) (by rwa [hresh] at h), hresh]
    · rename_i ha
      have hn2 : n ≤ 2 := le_two_of_hasTripleNL_replicate h
      have hrest : hasTripleNL rest = false :=
        hasTripleNL_tail (hasTripleNL_append_right h)
      rw [Nat.min_eq_left hn2, ih 0 (by simpa using hrest)]
      simp

/-- The collapse walks through a newline-free nonempty chunk unchanged. -/
theorem collapseAux_append_nonNL :
    ∀ (x : List Char), x ≠ [] → (∀ c ∈ x, c ≠ '\n') → ∀ (s : List Char) (n : Nat),
      collapseAux n (x ++ s) =
        List.replicate (min n 2) '\n' ++ x ++ collapseAux 0 s := by
  intro x
  induction x with
  | nil => intro h; exact absurd rfl h
  | cons c x' ih =>
    intro _ hx s n
    rw [List.cons_append, collapseAux, if_neg (by simpa using hx c (by simp))]
    rcases hx' : x' with _ | ⟨d, x''⟩
    · simp
    · rw [← hx']
      rw [ih (by simp [hx']) (fun e he => hx e (by simp [he])) s 0]
      simp

/-! ### Stripped strings: first and last characters are not whitespace -/

theorem pyStrip_eq_self_parts {l : List Char} (h : pyStrip l = l) :
    lstripP pyIsSpace l = l ∧ rstripP pyIsSpace l = l := by
  have hlen2 : (rstripP pyIsSpace (lstripP pyIsSpace l)).length ≤
      (lstripP pyIsSpace l).length := (rstripP_isPre _ _).length_le
  have hlen1 : (lstripP pyIsSpace l).length ≤ l.length :=
    (lstripP_isSuf pyIsSpace l).length_le
  have hleq : (lstripP pyIsSpace l).length = l.length := by
    have : (pyStrip l).length = l.length := by rw [h]
    unfold pyStrip at this
    omega
  have hls : lstripP pyIsSpace l = l :=
    (lstripP_isSuf pyIsSpace l).eq_of_length hleq
  refine ⟨hls, ?_⟩
  have : pyStrip l = rstripP pyIsSpace l := by unfold pyStrip; rw [hls]
  rw [← this, h]

theorem stripped_head_not {l : List Char} (h : pyStrip l = l) (hne : l ≠ []) :
    pyIsSpace (l.head hne) = false := by
  have hls := (pyStrip_eq_self_parts h).1
  rcases l with _ | ⟨a, t⟩
  · exact absurd rfl hne
  · by_cases ha : pyIsSpace a
    · exfalso
      rw [lstripP, List.dropWhile_cons_of_pos ha] at hls
      have : (t.dropWhile pyIsSpace).length ≤ t.length :=
        (List.dropWhile_suffix pyIsSpace).length_le
      have h2 : (t.dropWhile pyIsSpace).length = t.length + 1 := by rw [hls]; rfl
      omega
    · simpa using ha

theorem stripped_getLast_not {l : List Char} (h : pyStrip l = l) (hne : l ≠ []) :
    pyIsSpace (l.getLast hne) = false := by
  have hrs := (pyStrip_eq_self_parts h).2
  have := (List.rdropWhile_eq_self_iff (p := pyIsSpace) (l := l)).mp (by simpa [rstripP] using hrs)
  simpa using this hne

/-- `rstrip` distributes over append like Python's right-strip. -/
theorem rstripP_append (p : Char → Bool) (a b : List Char) :
    rstripP p (a ++ b) = if rstripP p b = [] then rstripP p a else a ++ rstripP p b := by
  simp only [rstripP, List.rdropWhile, List.reverse_append, List.dropWhile_append]
  by_cases hemp : (b.reverse.dropWhile p).isEmpty
  · rw [if_pos hemp, if_pos (by simpa [List.isEmpty_iff] using hemp)]
  · rw [if_neg hemp, if_neg (fun hc => hemp (by
      simp only [List.isEmpty_iff]
      exact List.reverse_eq_nil_iff.mp hc))]
    simp

theorem lstripP_replicate_nl (k : Nat) :
    lstripP pyIsSpace (List.replicate k '\n') = [] := by
  unfold lstripP
  rw [← List.append_nil (List.replicate k '\n'),
    List.dropWhile_append_of_pos (fun a ha => by
      rw [List.eq_of_mem_replicate ha]; decide)]
  rfl

theorem rstripP_replicate_nl (k : Nat) :
    rstripP pyIsSpace (List.replicate k '\n') = [] := by
  simp only [rstripP]
  rw [List.rdropWhile_eq_nil_iff]
  intro x hx
  rw [List.eq_of_mem_replicate hx]
  decide

/-! ### The lines-level image of collapse-then-strip (`csq`) -/

/-- `collapseAux n (joinNL X)` computed at the level of lines:
`n` pending newlines precede the first line. -/
def csq : Nat → List (List Char) → List Char
  | n, [] => List.replicate (min n 2) '\n'
  | n, [] :: X =>
    match X with
    | [] => List.replicate (min n 2) '\n'
    | _ :: _ => csq (n + 1) X
  | n, (c :: x) :: X =>
    List.replicate (min n 2) '\n' ++ (c :: x) ++
      (match X with
       | [] => []
       | _ :: _ => csq 1 X)

@[simp] theorem csq_nil (n : Nat) : csq n [] = List.replicate (min n 2) '\n' := rfl

@[simp] theorem csq_nil_single (n : Nat) : csq n [[]] = List.replicate (min n 2) '\n' := rfl

theorem csq_nil_cons (n : Nat) (z : List Char) (X : List (List Char)) :
    csq n ([] :: z :: X) = csq (n + 1) (z :: X) := rfl

theorem csq_single (n : Nat) (c : Char) (x : List Char) :
    csq n [c :: x] = List.replicate (min n 2) '\n' ++ (c :: x) := by
  show List.replicate (min n 2) '\n' ++ (c :: x) ++ [] = _
  rw [List.append_nil]

theorem csq_cons_cons (n : Nat) (c : Char) (x z : List Char) (X : List (List Char)) :
    csq n ((c :: x) :: z :: X) =
      List.replicate (min n 2) '\n' ++ (c :: x) ++ csq 1 (z :: X) := rfl

/-- Collapsing the joined lines equals `csq`, provided no line contains a
newline. -/
theorem collapseAux_joinNL :
    ∀ (X : List (List Char)) (n : Nat), (∀ line ∈ X, ∀ c ∈ line, c ≠ '\n') →
      collapseAux n (joinNL X) = csq n X := by
  intro X
  induction X with
  | nil => intro n _; rfl
  | cons y X' ih =>
    intro n hX
    rcases y with _ | ⟨c, x⟩
    · rcases X' with _ | ⟨z, X''⟩
      · rfl
      · rw [joinNL_cons_of_ne _ (by simp), List.nil_append, csq_nil_cons]
        rw [show collapseAux n ('\n' :: joinNL (z :: X'')) =
          collapseAux (n + 1) (joinNL (z :: X'')) from by rw [collapseAux]; simp]
        exact ih (n + 1) (fun line hl => hX line (by simp [hl]))
    · have hcx : ∀ e ∈ (c :: x), e ≠ '\n' := fun e he => hX (c :: x) (by simp) e he
      rcases X' with _ | ⟨z, X''⟩
      · rw [joinNL_single, csq_single, ← List.append_nil (c :: x),
          collapseAux_append_nonNL (c :: x) (by simp) hcx [] n]
        simp [collapseAux]
      · rw [joinNL_cons_of_ne _ (by simp), csq_cons_cons,
          collapseAux_append_nonNL (c :: x) (by simp) hcx _ n]
        rw [show collapseAux 0 ('\n' :: joinNL (z :: X'')) =
          collapseAux 1 (joinNL (z :: X'')) from by rw [collapseAux]; simp]
        rw [ih 1 (fun line hl => hX line (by simp [hl]))]

/-- What is left of `csq` after the left strip: leading blank lines and
the pending-newline prefix disappear. -/
def csqBody : List (List Char) → List Char
  | [] => []
  | [] :: X =>
    match X with
    | [] => []
    | _ :: _ => csqBody X
  | (c :: x) :: X =>
    (c :: x) ++
      (match X with
       | [] => []
       | _ :: _ => csq 1 X)

theorem lstripP_csq :
    ∀ (X : List (List Char)) (n : Nat), (∀ line ∈ X, pyStrip line = line) →
      lstripP pyIsSpace (csq n X) = csqBody X := by
  intro X
  induction X with
  | nil => intro n _; exact lstripP_replicate_nl _
  | cons y X' ih =>
    intro n hX
    rcases y with _ | ⟨c, x⟩
    · rcases X' with _ | ⟨z, X''⟩
      · exact lstripP_replicate_nl _
      · rw [csq_nil_cons]
        exact ih (n + 1) (fun line hl => hX line (by simp [hl]))
    · have hc : pyIsSpace c = false := by
        have := stripped_head_not (hX (c :: x) (by simp)) (by simp)
        simpa using this
      rcases X' with _ | ⟨z, X''⟩
      · rw [csq_single]
        unfold lstripP
        rw [List.dropWhile_append_of_pos (fun a ha => by
          rw [List.eq_of_mem_replicate ha]; decide)]
        rw [List.dropWhile_cons_of_neg (by simp [hc])]
        show _ = (c :: x) ++ ([] : List Char)
        rw [List.append_nil]
      · rw [csq_cons_cons]
        unfold lstripP
        rw [List.append_assoc, List.dropWhile_append_of_pos (fun a ha => by
          rw [List.eq_of_mem_replicate ha]; decide)]
        rw [show (c :: x) ++ csq 1 (z :: X'') = c :: (x ++ csq 1 (z :: X'')) from rfl]
        rw [List.dropWhile_cons_of_neg (by simp [hc])]
        rfl

theorem getLast?_cons_of_ne {α : Type} {a : α} {l : List α} (h : l ≠ []) :
    (a :: l).getLast? = l.getLast? := by
  rcases l with _ | ⟨b, t⟩
  · exact absurd rfl h
  · exact List.getLast?_cons_cons

/-- Well-formedness of a line list describing a fully normalised string:
stripped, line-break-free lines, no leading/trailing empty line, no two
adjacent empty lines. -/
def GoodLines (Y : List (List Char)) : Prop :=
  (∀ line ∈ Y, pyStrip line = line ∧ ∀ c ∈ line, pyIsLineBreak c = false) ∧
  List.Chain' (fun a b => a = [] → b ≠ []) Y ∧
  Y.getLast? ≠ some [] ∧
  Y.head? ≠ some []

/-- Right-stripping `csq n Z` (for `n ≥ 1`) yields a newline prefix
followed by the join of a normalised line list. -/
theorem rstripP_csq :
    ∀ (Z : List (List Char)),
      (∀ line ∈ Z, pyStrip line = line ∧ ∀ c ∈ line, pyIsLineBreak c = false) →
      ∀ n, 1 ≤ n →
      ∃ Y : List (List Char),
        (∀ line ∈ Y, pyStrip line = line ∧ ∀ c ∈ line, pyIsLineBreak c = false) ∧
        List.Chain' (fun a b => a = [] → b ≠ []) Y ∧
        Y.getLast? ≠ some [] ∧
        (2 ≤ n → Y.head? ≠ some []) ∧
        ((Y = [] ∧ rstripP pyIsSpace (csq n Z) = []) ∨
         (Y ≠ [] ∧ rstripP pyIsSpace (csq n Z) =
            List.replicate (min n 2) '\n' ++ joinNL Y)) := by
  intro Z
  induction Z with
  | nil =>
    intro _ n _
    exact ⟨[], by simp, by simp, by simp, by simp,
      Or.inl ⟨rfl, by rw [csq_nil]; exact rstripP_replicate_nl _⟩⟩
  | cons y X ih =>
    intro hZ n hn
    rcases y with _ | ⟨c, x⟩
    · rcases X with _ | ⟨z, X'⟩
      · exact ⟨[], by simp, by simp, by simp, by simp,
          Or.inl ⟨rfl, by rw [csq_nil_single]; exact rstripP_replicate_nl _⟩⟩
      · obtain ⟨Y', hl', hch', hla', hhd', heq'⟩ :=
          ih (fun line hl => hZ line (by simp [hl])) (n + 1) (by omega)
        rcases heq' with ⟨hY', heq'⟩ | ⟨hY', heq'⟩
        · exact ⟨[], by simp, by simp, by simp, by simp,
            Or.inl ⟨rfl, by rw [csq_nil_cons]; exact heq'⟩⟩
        · have hhd2 : Y'.head? ≠ some [] := hhd' (by omega)
          by_cases h2 : 2 ≤ n
          · refine ⟨Y', hl', hch', hla', fun _ => hhd2, Or.inr ⟨hY', ?_⟩⟩
            rw [csq_nil_cons, heq']
            have : min (n + 1) 2 = min n 2 := by omega
            rw [this]
          · have hn1 : n = 1 := by omega
            subst hn1
            refine ⟨[] :: Y', ?_, ?_, ?_, by omega, Or.inr ⟨by simp, ?_⟩⟩
            · intro line hl
              rcases List.mem_cons.mp hl with rfl | h
              · exact ⟨rfl, by simp⟩
              · exact hl' line h
            · rw [List.chain'_cons']
              refine ⟨fun w hw _ => ?_, hch'⟩
              intro hwnil
              rw [hwnil] at hw
              exact hhd2 hw
            · rwa [getLast?_cons_of_ne hY']
            · rw [csq_nil_cons, heq', joinNL_cons_of_ne _ hY']
              simp
    · -- first line nonempty
      have hcx := hZ (c :: x) (by simp)
      have hcxs : rstripP pyIsSpace (c :: x) = c :: x := (pyStrip_eq_self_parts hcx.1).2
      rcases X with _ | ⟨z, X'⟩
      · refine ⟨[c :: x], by simpa using hcx, by simp, by simp, fun _ => by simp,
          Or.inr ⟨by simp, ?_⟩⟩
        rw [csq_single, rstripP_append, hcxs]
        rw [if_neg (by simp), joinNL_single]
      · obtain ⟨Y', hl', hch', hla', hhd', heq'⟩ :=
          ih (fun line hl => hZ line (by simp [hl])) 1 (by omega)
        rw [csq_cons_cons, List.append_assoc, rstripP_append]
        rcases heq' with ⟨hY', heq'⟩ | ⟨hY', heq'⟩
        · -- tail strips to nothing
          rw [rstripP_append, heq', if_pos rfl, hcxs]
          refine ⟨[c :: x], by simpa using hcx, by simp, by simp, fun _ => by simp,
            Or.inr ⟨by simp, ?_⟩⟩
          rw [if_neg (by simp), joinNL_single]
        · -- tail strips to a newline plus joined lines
          rw [rstripP_append, heq']
          rw [if_neg (by simp), if_neg (by simp)]
          refine ⟨(c :: x) :: Y', ?_, ?_, ?_, fun _ => by simp, Or.inr ⟨by simp, ?_⟩⟩
          · intro line hl
            rcases List.mem_cons.mp hl with rfl | h
            · exact hcx
            · exact hl' line h
          · rw [List.chain'_cons']
            exact ⟨fun w hw hx => absurd hx (by simp), hch'⟩
          · rwa [getLast?_cons_of_ne hY']
          · rw [joinNL_cons_of_ne _ hY']
            simp

/-- Right-stripping `csqBody X` yields the join of a normalised line
list. -/
theorem rstripP_csqBody :
    ∀ (X : List (List Char)),
      (∀ line ∈ X, pyStrip line = line ∧ ∀ c ∈ line, pyIsLineBreak c = false) →
      ∃ Y : List (List Char), GoodLines Y ∧
        rstripP pyIsSpace (csqBody X) = joinNL Y := by
  intro X
  induction X with
  | nil => exact fun _ => ⟨[], ⟨by simp, by simp, by simp, by simp⟩, by simp [csqBody, rstripP]⟩
  | cons y X' ih =>
    intro hX
    rcases y with _ | ⟨c, x⟩
    · rcases X' with _ | ⟨z, X''⟩
      · exact ⟨[], ⟨by simp, by simp, by simp, by simp⟩, by simp [csqBody, rstripP]⟩
      · have := ih (fun line hl => hX line (by simp [hl]))
        simpa [csqBody] using this
    · have hcx := hX (c :: x) (by simp)
      have hcxs : rstripP pyIsSpace (c :: x) = c :: x := (pyStrip_eq_self_parts hcx.1).2
      rcases X' with _ | ⟨z, X''⟩
      · refine ⟨[c :: x], ⟨by simpa using hcx, by simp, by simp, by simp⟩, ?_⟩
        show rstripP pyIsSpace ((c :: x) ++ []) = _
        rw [List.append_nil, hcxs, joinNL_single]
      · obtain ⟨Y', hl', hch', hla', hhd', heq'⟩ :=
          rstripP_csq (z :: X'') (fun line hl => hX line (by simp [hl])) 1 (by omega)
        have hbody : csqBody ((c :: x) :: z :: X'') = (c :: x) ++ csq 1 (z :: X'') := rfl
        rcases heq' with ⟨hY', heq'⟩ | ⟨hY', heq'⟩
        · refine ⟨[c :: x], ⟨by simpa using hcx, by simp, by simp, by simp⟩, ?_⟩
          rw [hbody, rstripP_append, heq', if_pos rfl, hcxs, joinNL_single]
        · refine ⟨(c :: x) :: Y', ⟨?_, ?_, ?_, by simp⟩, ?_⟩
          · intro line hl
            rcases List.mem_cons.mp hl with rfl | h
            · exact hcx
            · exact hl' line h
          · rw [List.chain'_cons']
            exact ⟨fun w hw hx => absurd hx (by simp), hch'⟩
          · rwa [getLast?_cons_of_ne hY']
          · rw [hbody, rstripP_append, heq', if_neg (by simp), joinNL_cons_of_ne _ hY']
            simp

/-- Shape of one pass of join–collapse–strip over stripped,
line-break-free lines: the result is the join of a normalised line list. -/
theorem simpleCore_shape (X : List (List Char))
    (hX : ∀ line ∈ X, pyStrip line = line ∧ ∀ c ∈ line, pyIsLineBreak c = false) :
    ∃ Y : List (List Char), GoodLines Y ∧
      pyStrip (collapseAux 0 (joinNL X)) = joinNL Y := by
  rw [collapseAux_joinNL X 0 (fun line hl c hc heq => by
    have := (hX line hl).2 c hc
    rw [heq] at this
    exact absurd this (by decide))]
  unfold pyStrip
  rw [lstripP_csq X 0 (fun line hl => (hX line hl).1)]
  exact rstripP_csqBody X hX

/-- `joinNL` of a normalised line list is nonempty unless the list is. -/
theorem joinNL_ne_nil {Y : List (List Char)} (hne : Y ≠ [])
    (hlast : Y.getLast? ≠ some []) : joinNL Y ≠ [] := by
  rcases Y with _ | ⟨y, Y'⟩
  · exact absurd rfl hne
  · rcases Y' with _ | ⟨z, Y''⟩
    · rw [joinNL_single]
      intro hy
      rw [hy] at hlast
      simp at hlast
    · rw [joinNL_cons_of_ne _ (by simp)]
      simp

/-- The last character of the join of a normalised line list is not
whitespace. -/
theorem joinNL_getLast_not_space :
    ∀ (Y : List (List Char)), Y ≠ [] → Y.getLast? ≠ some [] →
      (∀ line ∈ Y, pyStrip line = line) →
      ∃ e, (joinNL Y).getLast? = some e ∧ pyIsSpace e = false := by
  intro Y
  induction Y with
  | nil => intro h; exact absurd rfl h
  | cons y Y' ih =>
    intro _ hlast hstr
    rcases Y' with _ | ⟨z, Y''⟩
    · have hy : y ≠ [] := by
        intro h; rw [h] at hlast; simp at hlast
      refine ⟨y.getLast hy, ?_, ?_⟩
      · rw [joinNL_single]
        exact List.getLast?_eq_getLast y hy
      · exact stripped_getLast_not (hstr y (by simp)) hy
    · have hlast' : (z :: Y'').getLast? ≠ some [] := by
        rwa [getLast?_cons_of_ne (by simp : (z :: Y'' : List (List Char)) ≠ [])] at hlast
      obtain ⟨e, he, hes⟩ := ih (by simp) hlast'
        (fun line hl => hstr line (by simp [hl]))
      refine ⟨e, ?_, hes⟩
      rw [joinNL_cons_of_ne _ (by simp), List.getLast?_append]
      have hjn : joinNL (z :: Y'') ≠ [] := joinNL_ne_nil (by simp) hlast'
      rw [getLast?_cons_of_ne hjn, he]
      rfl

/-- The join of a normalised line list is already stripped. -/
theorem pyStrip_joinNL_good {Y : List (List Char)} (h : GoodLines Y) :
    pyStrip (joinNL Y) = joinNL Y := by
  obtain ⟨hlines, hch, hlast, hhead⟩ := h
  rcases Y with _ | ⟨y, Y'⟩
  · rfl
  · rcases hy : y with _ | ⟨c, x⟩
    · rw [hy] at hhead; simp at hhead
    · subst hy
      have hc : pyIsSpace c = false := by
        have := stripped_head_not (hlines (c :: x) (by simp)).1
          (by simp : (c :: x : List Char) ≠ [])
        simpa using this
      have hjoin : ∃ t, joinNL ((c :: x) :: Y') = c :: t := by
        rcases Y' with _ | ⟨z, Y''⟩
        · exact ⟨x, by rw [joinNL_single]⟩
        · exact ⟨x ++ '\n' :: joinNL (z :: Y''),
            by rw [joinNL_cons_of_ne _ (by simp)]; rfl⟩
      obtain ⟨t, ht⟩ := hjoin
      have hls : lstripP pyIsSpace (joinNL ((c :: x) :: Y')) = joinNL ((c :: x) :: Y') := by
        rw [ht]
        exact List.dropWhile_cons_of_neg (by simp [hc])
      obtain ⟨e, he, hes⟩ := joinNL_getLast_not_space ((c :: x) :: Y') (by simp) hlast
        (fun line hl => (hlines line hl).1)
      have hrs : rstripP pyIsSpace (joinNL ((c :: x) :: Y')) = joinNL ((c :: x) :: Y') := by
        apply rstripP_eq_self_of_getLast
        intro hl
        rw [List.getLast?_eq_getLast _ hl] at he
        rw [Option.some_inj.mp he]
        simp [hes]
      unfold pyStrip
      rw [hls, hrs]

/-- `csq` over a normalised line list reproduces the joined string.
The first component handles a nonempty head line (arbitrary pending
count), the second the general nonempty case at pending count one. -/
theorem csq_fixed :
    ∀ (Y : List (List Char)),
      (∀ line ∈ Y, pyStrip line = line ∧ ∀ c ∈ line, pyIsLineBreak c = false) →
      List.Chain' (fun a b => a = [] → b ≠ []) Y →
      Y.getLast? ≠ some [] →
      ((Y.head? ≠ some [] → ∀ n, csq n Y = List.replicate (min n 2) '\n' ++ joinNL Y) ∧
       (Y ≠ [] → csq 1 Y = '\n' :: joinNL Y)) := by
  intro Y
  induction Y with
  | nil =>
    intro _ _ _
    refine ⟨fun _ n => by simp, fun h => absurd rfl h⟩
  | cons y Y' ih =>
    intro hlines hch hlast
    have conj1 : (y :: Y').head? ≠ some [] →
        ∀ n, csq n (y :: Y') = List.replicate (min n 2) '\n' ++ joinNL (y :: Y') := by
      intro hhead n
      rcases hy : y with _ | ⟨c, x⟩
      · rw [hy] at hhead; simp at hhead
      · subst hy
        rcases Y' with _ | ⟨z, Y''⟩
        · rw [csq_single, joinNL_single]
        · have hlast' : (z :: Y'').getLast? ≠ some [] := by
            rwa [getLast?_cons_of_ne (by simp : (z :: Y'' : List (List Char)) ≠ [])] at hlast
          have ih2 := (ih (fun line hl => hlines line (by simp [hl]))
            (List.chain'_cons'.mp hch).2 hlast').2 (by simp)
          rw [csq_cons_cons, ih2,
            joinNL_cons_of_ne (c :: x) (by simp : (z :: Y'' : List (List Char)) ≠ []),
            List.append_assoc]
    refine ⟨conj1, ?_⟩
    intro _
    rcases hy : y with _ | ⟨c, x⟩
    · subst hy
      have hY' : Y' ≠ [] := by
        intro h
        subst h
        simp at hlast
      rcases Y' with _ | ⟨z, Y''⟩
      · exact absurd rfl hY'
      · have hz : z ≠ [] := by
          have := (List.chain'_cons'.mp hch).1
          intro hznil
          exact this z (by simp) rfl hznil
        have hlast' : (z :: Y'').getLast? ≠ some [] := by
          rwa [getLast?_cons_of_ne (by simp : (z :: Y'' : List (List Char)) ≠ [])] at hlast
        have ih1 := (ih (fun line hl => hlines line (by simp [hl]))
          (List.chain'_cons'.mp hch).2 hlast').1 (by simpa using hz) 2
        rw [csq_nil_cons, ih1,
          joinNL_cons_of_ne ([] : List Char) (by simp : (z :: Y'' : List (List Char)) ≠ [])]
        rfl
    · subst hy
      have := conj1 (by simp) 1
      rw [this]
      rfl

/-- One full pass of the quote-free part of the sanitiser is idempotent:
`joinNL Y` for a normalised `Y` is a fixed point. -/
theorem simpleCore_fixed {Y : List (List Char)} (h : GoodLines Y) :
    pyStrip (collapseAux 0 (joinNL ((pySplitlines
      (pyStrip (joinNL Y))).map pyStrip))) = joinNL Y := by
  obtain ⟨hlines, hch, hlast, hhead⟩ := h
  rw [pyStrip_joinNL_good ⟨hlines, hch, hlast, hhead⟩]
  rw [pySplitlines_joinNL Y (fun line hl => (hlines line hl).2) hlast]
  have hmap : Y.map pyStrip = Y := by
    have : ∀ line ∈ Y, pyStrip line = line := fun line hl => (hlines line hl).1
    calc Y.map pyStrip = Y.map id := List.map_congr_left this
    _ = Y := List.map_id Y
  rw [hmap]
  rw [collapseAux_joinNL Y 0 (fun line hl c hc heq => by
    have := (hlines line hl).2 c hc
    rw [heq] at this
    exact absurd this (by decide))]
  rcases hY : Y with _ | ⟨y, Y'⟩
  · rfl
  · rw [← hY]
    have hcs := (csq_fixed Y hlines hch hlast).1 hhead 0
    rw [hcs]
    simp [pyStrip_joinNL_good ⟨hlines, hch, hlast, hhead⟩]

/-! ### The sanitiser on quote-free text -/

/-- No quote character (ASCII double or single, curly double) occurs. -/
def noQuotes (l : List Char) : Bool :=
  l.all (fun c => !(c = '"' || c = '“' || c = '”' || c = squote))

theorem noQuotes_mem {l : List Char} (h : noQuotes l = true) {c : Char} (hc : c ∈ l) :
    c ≠ '"' ∧ c ≠ '“' ∧ c ≠ '”' ∧ c ≠ squote := by
  have := List.all_eq_true.mp h c hc
  simp at this
  exact ⟨this.1.1.1, this.1.1.2, this.1.2, this.2⟩

theorem noQuotes_sub {l t : List Char} (h : noQuotes l = true)
    (hsub : ∀ c ∈ t, c ∈ l) : noQuotes t = true := by
  apply List.all_eq_true.mpr
  intro c hc
  exact List.all_eq_true.mp h c (hsub c hc)

theorem unwrapQuotes_eq_self {l : List Char} (h : noQuotes l = true) :
    unwrapQuotes l = l := by
  rcases l with _ | ⟨c0, t0⟩
  · rfl
  · have hg : (c0 :: t0).getLast? = some ((c0 :: t0).getLast (by simp)) :=
      List.getLast?_eq_getLast _ (by simp)
    have hq := noQuotes_mem h (List.mem_cons_self c0 t0)
    unfold unwrapQuotes
    rw [hg]
    simp only [List.head?_cons]
    rw [if_neg]
    intro hcond
    rcases hcond with ⟨h1, _⟩ | ⟨h1, _⟩ | ⟨h1, _⟩
    · exact hq.1 h1
    · exact hq.2.1 h1
    · exact hq.2.2.2 h1

theorem stripQuoteEnds_eq_self {l : List Char} (h : noQuotes l = true) :
    stripQuoteEnds l = l := by
  unfold stripQuoteEnds
  have hls : lstripP isQuoteStrip l = l := by
    apply lstripP_eq_self_of_head
    intro hl
    have hq := noQuotes_mem h (l.get_mem 0 hl)
    simp only [isQuoteStrip, Bool.or_eq_true, decide_eq_true_eq]
    tauto
  rw [hls]
  apply rstripP_eq_self_of_getLast
  intro hl
  have hq := noQuotes_mem h (l.getLast_mem hl)
  simp only [isQuoteStrip, Bool.or_eq_true, decide_eq_true_eq]
  tauto

theorem mapQuote_eq_self {l : List Char} (h : noQuotes l = true) :
    l.map (fun c => if c = '"' then squote else c) = l := by
  calc l.map (fun c => if c = '"' then squote else c) = l.map id :=
        List.map_congr_left (fun a ha => if_neg (noQuotes_mem h ha).1)
  _ = l := List.map_id l

theorem cleanLine_eq_pyStrip {line : List Char} (h : noQuotes line = true) :
    cleanLine line = pyStrip line := by
  have h1 : noQuotes (pyStrip line) = true :=
    noQuotes_sub h (fun c hc => mem_pyStrip hc)
  show (stripQuoteEnds (unwrapQuotes (pyStrip line))).map _ = _
  rw [unwrapQuotes_eq_self h1, stripQuoteEnds_eq_self h1, mapQuote_eq_self h1]

/-- On quote-free input, `_clean_summary_text` reduces to strip, per-line
strip, join and blank-run collapse. -/
theorem cleanChars_eq_core {l : List Char} (h : noQuotes l = true) :
    cleanChars l =
      pyStrip (collapseAux 0 (joinNL ((pySplitlines (pyStrip l)).map pyStrip))) := by
  have h1 : noQuotes (pyStrip l) = true := noQuotes_sub h (fun c hc => mem_pyStrip hc)
  have hdef : cleanChars l = pyStrip (collapseBlankRuns
      (joinNL ((pySplitlines (unwrapQuotes (pyStrip l))).map cleanLine))) := rfl
  rw [hdef, unwrapQuotes_eq_self h1]
  have hmap : (pySplitlines (pyStrip l)).map cleanLine =
      (pySplitlines (pyStrip l)).map pyStrip := by
    apply List.map_congr_left
    intro line hl
    apply cleanLine_eq_pyStrip
    apply noQuotes_sub h1
    intro c hc
    rcases splitlinesGo_lines_mem (pyStrip l) [] line hl c hc with h2 | h2
    · exact h2
    · simp at h2
  rw [hmap]
  rfl

/-- The sanitiser introduces no quote characters on quote-free input. -/
theorem noQuotes_cleanChars {l : List Char} (h : noQuotes l = true) :
    noQuotes (cleanChars l) = true := by
  rw [cleanChars_eq_core h]
  apply List.all_eq_true.mpr
  intro c hc
  have hmem : c ∈ l ∨ c = '\n' := by
    have h1 := mem_pyStrip hc
    rcases mem_collapseAux _ 0 h1 with h2 | h2
    · exact Or.inr h2
    · rcases mem_joinNL h2 with h3 | ⟨line, hline, hcl⟩
      · exact Or.inr h3
      · obtain ⟨line0, hl0, rfl⟩ := List.mem_map.mp hline
        have h4 : c ∈ line0 := mem_pyStrip hcl
        rcases splitlinesGo_lines_mem (pyStrip l) [] line0 hl0 c h4 with h5 | h5
        · exact Or.inl (mem_pyStrip h5)
        · simp at h5
  rcases hmem with h1 | rfl
  · exact List.all_eq_true.mp h c h1
  · decide

/-- The lines fed to the core pass are stripped and line-break-free. -/
theorem coreLines_ok (l : List Char) :
    ∀ line ∈ (pySplitlines (pyStrip l)).map pyStrip,
      pyStrip line = line ∧ ∀ c ∈ line, pyIsLineBreak c = false := by
  intro line hline
  obtain ⟨line0, hl0, rfl⟩ := List.mem_map.mp hline
  refine ⟨pyStrip_idem line0, ?_⟩
  intro c hc
  exact splitlinesGo_lines_nonbreak (pyStrip l) [] (by simp) line0 hl0 c (mem_pyStrip hc)

/-- Idempotence of `_clean_summary_text` on quote-free input
(character-list level). -/
theorem cleanChars_idem {l : List Char} (h : noQuotes l = true) :
    cleanChars (cleanChars l) = cleanChars l := by
  obtain ⟨Y, hGood, hshape⟩ :=
    simpleCore_shape ((pySplitlines (pyStrip l)).map pyStrip) (coreLines_ok l)
  have ht : cleanChars l = joinNL Y := (cleanChars_eq_core h).trans hshape
  have hq : noQuotes (joinNL Y) = true := ht ▸ noQuotes_cleanChars h
  rw [ht, cleanChars_eq_core hq, simpleCore_fixed hGood]

/-! ## SHA-256 (FIPS 180-4), UTF-8, hex -/

/-- Reduction modulo `2^32`. -/
def w32 (x : Nat) : Nat := x % 4294967296

/-- 32-bit right rotation. -/
def rotr32 (n x : Nat) : Nat := w32 ((x >>> n) ||| (x <<< (32 - n)))

def shaCh (e f g : Nat) : Nat := (e &&& f) ^^^ ((e ^^^ 4294967295) &&& g)

def shaMaj (a b c : Nat) : Nat := (a &&& b) ^^^ (a &&& c) ^^^ (b &&& c)

def bigSigma0 (x : Nat) : Nat := rotr32 2 x ^^^ rotr32 13 x ^^^ rotr32 22 x

def bigSigma1 (x : Nat) : Nat := rotr32 6 x ^^^ rotr32 11 x ^^^ rotr32 25 x

def smallSigma0 (x : Nat) : Nat := rotr32 7 x ^^^ rotr32 18 x ^^^ (x >>> 3)

def smallSigma1 (x : Nat) : Nat := rotr32 17 x ^^^ rotr32 19 x ^^^ (x >>> 10)

/-- The 64 round constants. -/
def shaK : List Nat :=
  [1116352408, 1899447441, 3049323471, 3921009573, 961987163, 1508970993,
    2453635748, 2870763221, 3624381080, 310598401, 607225278, 1426881987,
    1925078388, 2162078206, 2614888103, 3248222580, 3835390401, 4022224774,
    264347078, 604807628, 770255983, 1249150122, 1555081692, 1996064986,
    2554220882, 2821834349, 2952996808, 3210313671, 3336571891, 3584528711,
    113926993, 338241895, 666307205, 773529912, 1294757372, 1396182291,
    1695183700, 1986661051, 2177026350, 2456956037, 2730485921, 2820302411,
    3259730800, 3345764771, 3516065817, 3600352804, 4094571909, 275423344,
    430227734, 506948616, 659060556, 883997877, 958139571, 1322822218,
    1537002063, 1747873779, 1955562222, 2024104815, 2227730452, 2361852424,
    2428436474, 2756734187, 3204031479, 3329325298]

/-- The initial hash value. -/
def shaH0 : List Nat :=
  [1779033703, 3144134277, 1013904242, 2773480762, 1359893119, 2600822924,
    528734635, 1541459225]

/-- Big-endian byte representation, fixed width. -/
def toBytesBE (numBytes x : Nat) : List Nat :=
  (List.range numBytes).map (fun i => (x >>> (8 * (numBytes - 1 - i))) % 256)

/-- SHA-256 padding: `0x80`, zeros, 64-bit big-endian bit length. -/
def shaPad (msg : List Nat) : List Nat :=
  let len := msg.length
  let k := (64 + 56 - (len + 1) % 64) % 64
  msg ++ [0x80] ++ List.replicate k 0 ++ toBytesBE 8 (8 * len)

/-- Split into 64-byte blocks (fuel-based to stay structural). -/
def chunk64 : Nat → List Nat → List (List Nat)
  | 0, _ => []
  | _, [] => []
  | fuel + 1, bytes => bytes.take 64 :: chunk64 fuel (bytes.drop 64)

/-- Big-endian 32-bit words from bytes. -/
def bytesToWords : List Nat → List Nat
  | b0 :: b1 :: b2 :: b3 :: rest =>
    (((b0 * 256 + b1) * 256 + b2) * 256 + b3) :: bytesToWords rest
  | _ => []

/-- Extend the 16 message words to 64. -/
def shaSchedule : Nat → List Nat → List Nat
  | 0, ws => ws
  | k + 1, ws =>
    let t := ws.length
    let next := w32 (smallSigma1 (ws.getD (t - 2) 0) + ws.getD (t - 7) 0 +
      smallSigma0 (ws.getD (t - 15) 0) + ws.getD (t - 16) 0)
    shaSchedule k (ws ++ [next])

/-- One compression round. -/
def shaRound (st : Nat × Nat × Nat × Nat × Nat × Nat × Nat × Nat) (kw : Nat × Nat) :
    Nat × Nat × Nat × Nat × Nat × Nat × Nat × Nat :=
  match st, kw with
  | (a, b, c, d, e, f, g, h), (kk, ww) =>
    let t1 := w32 (h + bigSigma1 e + shaCh e f g + kk + ww)
    let t2 := w32 (bigSigma0 a + shaMaj a b c)
    (w32 (t1 + t2), a, b, c, w32 (d + t1), e, f, g)

/-- Compress one 64-byte block into the hash state. -/
def shaCompress (H : List Nat) (block : List Nat) : List Nat :=
  let ws := shaSchedule 48 (bytesToWords block)
  let st0 := (H.getD 0 0, H.getD 1 0, H.getD 2 0, H.getD 3 0,
    H.getD 4 0, H.getD 5 0, H.getD 6 0, H.getD 7 0)
  match (shaK.zip ws).foldl shaRound st0 with
  | (a, b, c, d, e, f, g, h) =>
    [w32 (H.getD 0 0 + a), w32 (H.getD 1 0 + b), w32 (H.getD 2 0 + c),
     w32 (H.getD 3 0 + d), w32 (H.getD 4 0 + e), w32 (H.getD 5 0 + f),
     w32 (H.getD 6 0 + g), w32 (H.getD 7 0 + h)]

/-- SHA-256 of a byte list, as the eight 32-bit hash words. -/
def sha256Words (msg : List Nat) : List Nat :=
  let padded := shaPad msg
  (chunk64 padded.length padded).foldl shaCompress shaH0

def hexDigit (n : Nat) : Char :=
  if n < 10 then Char.ofNat (48 + n) else Char.ofNat (87 + n)

def wordToHex (x : Nat) : List Char :=
  (List.range 8).map (fun i => hexDigit ((x >>> (4 * (7 - i))) % 16))

/-- `hashlib.sha256(msg).hexdigest()`. -/
def sha256hex (msg : List Nat) : List Char :=
  ((sha256Words msg).map wordToHex).flatten

/-- UTF-8 encoding of one character. -/
def utf8Char (c : Char) : List Nat :=
  let n := c.toNat
  if n < 0x80 then [n]
  else if n < 0x800 then [0xc0 + n / 64, 0x80 + n % 64]
  else if n < 0x10000 then [0xe0 + n / 4096, 0x80 + (n / 64) % 64, 0x80 + n % 64]
  else [0xf0 + n / 262144, 0x80 + (n / 4096) % 64, 0x80 + (n / 64) % 64, 0x80 + n % 64]

/-- `s.encode("utf-8")`. -/
def utf8Bytes (l : List Char) : List Nat := (l.map utf8Char).flatten

/-! ## `urllib.parse` (CPython 3.11) and `generate_base_document_id`
(`function_app.py` lines 73-114) -/

/-- ASCII lower-casing (`str.lower` restricted to ASCII letters; the
pipeline only ever lowercases URLs). -/
def asciiLower (c : Char) : Char :=
  if 'A' ≤ c ∧ c ≤ 'Z' then Char.ofNat (c.toNat + 32) else c

def pyLower (l : List Char) : List Char := l.map asciiLower

/-- `_WHATWG_C0_CONTROL_OR_SPACE`. -/
def isC0OrSpace (c : Char) : Bool := c.toNat ≤ 0x20

/-- `_UNSAFE_URL_BYTES_TO_REMOVE`. -/
def isUnsafeUrlByte (c : Char) : Bool := c = '\t' || c = '\r' || c = '\n'

/-- `urlsplit`'s input cleanup: lstrip C0-controls/space, then drop all
tab/CR/LF characters. -/
def urlCleanup (l : List Char) : List Char :=
  (l.dropWhile isC0OrSpace).filter (fun c => !isUnsafeUrlByte c)

def isAsciiAlpha (c : Char) : Bool := ('a' ≤ c && c ≤ 'z') || ('A' ≤ c && c ≤ 'Z')

/-- `scheme_chars`. -/
def isSchemeChar (c : Char) : Bool :=
  isAsciiAlpha c || ('0' ≤ c && c ≤ '9') || c = '+' || c = '-' || c = '.'

/-- Split at the first occurrence of `c` (Python `s.split(c, 1)` when `c`
occurs, `none` otherwise). -/
def splitAtFirst (c : Char) : List Char → Option (List Char × List Char)
  | [] => none
  | a :: rest =>
    if a = c then some ([], rest)
    else (splitAtFirst c rest).map (fun p => (a :: p.1, p.2))

/-- Is `c` a netloc delimiter (`'/?#'`)? -/
def isNetlocDelim (c : Char) : Bool := c = '/' || c = '?' || c = '#'

/-- The scheme extraction of `urlsplit`: everything before the first
`':'` when non-empty, letter-initial and made of scheme characters. -/
def schemeSplit (url : List Char) : List Char × List Char :=
  match splitAtFirst ':' url with
  | some (pre, post) =>
    if pre ≠ [] ∧ isAsciiAlpha (pre.headD ' ') ∧ pre.all isSchemeChar then
      (pyLower pre, post)
    else ([], url)
  | none => ([], url)

/-- The netloc extraction of `urlsplit`: after a leading `'//'`, up to
the first of `'/?#'`. -/
def netlocSplit (url : List Char) : List Char × List Char :=
  if url.take 2 = ['/', '/'] then
    ((url.drop 2).takeWhile (fun c => !isNetlocDelim c),
     (url.drop 2).dropWhile (fun c => !isNetlocDelim c))
  else ([], url)

/-- `url.split('#', 1)` when `'#'` occurs. -/
def fragSplit (url : List Char) : List Char × List Char :=
  match splitAtFirst '#' url with
  | some (pre, post) => (pre, post)
  | none => (url, [])

/-- `url.split('?', 1)` when `'?'` occurs. -/
def querySplit (url : List Char) : List Char × List Char :=
  match splitAtFirst '?' url with
  | some (pre, post) => (pre, post)
  | none => (url, [])

/-- `urllib.parse.urlsplit` (scheme, netloc, path, query, fragment).
The IPv6-bracket validation and `_checknetloc` (which only ever raise)
are omitted. -/
def urlsplitModel (url0 : List Char) :
    List Char × List Char × List Char × List Char × List Char :=
  let url1 := urlCleanup url0
  let sp := schemeSplit url1
  let np := netlocSplit sp.2
  let fp := fragSplit np.2
  let qp := querySplit fp.1
  (sp.1, np.1, qp.1, qp.2, fp.2)

/-- Split at the last occurrence of `c`. -/
def splitAtLast (c : Char) (l : List Char) : Option (List Char × List Char) :=
  (splitAtFirst c l.reverse).map (fun p => (p.2.reverse, p.1.reverse))

/-- `urllib.parse._splitparams` (only called when `';'` occurs). -/
def pySplitparams (url : List Char) : List Char × List Char :=
  match splitAtLast '/' url with
  | some (pre, suf) =>
    match splitAtFirst ';' suf with
    | some (s1, s2) => (pre ++ '/' :: s1, s2)
    | none => (url, [])
  | none =>
    match splitAtFirst ';' url with
    | some (s1, s2) => (s1, s2)
    | none => (url, [])

/-- `urllib.parse.uses_params`. -/
def usesParamsList : List (List Char) :=
  ["", "ftp", "hdl", "prospero", "http", "imap", "https", "shttp", "rtsp",
   "rtsps", "rtspu", "sip", "sips", "mms", "sftp", "tel"].map String.data

/-- `urllib.parse.uses_netloc`. -/
def usesNetlocList : List (List Char) :=
  ["", "ftp", "http", "gopher", "nntp", "telnet", "imap", "wais", "file",
   "mms", "https", "shttp", "snews", "prospero", "rtsp", "rtsps", "rtspu",
   "rsync", "svn", "svn+ssh", "sftp", "nfs", "git", "git+ssh", "ws",
   "wss"].map String.data

structure UrlParts where
  scheme : List Char
  netloc : List Char
  path : List Char
  params : List Char
  query : List Char
  fragment : List Char
  deriving DecidableEq, Repr

/-- `urllib.parse.urlparse`. -/
def urlparseModel (url0 : List Char) : UrlParts :=
  let t := urlsplitModel url0
  let scheme := t.1
  let netloc := t.2.1
  let url := t.2.2.1
  let query := t.2.2.2.1
  let fragment := t.2.2.2.2
  let pp :=
    if scheme ∈ usesParamsList ∧ ';' ∈ url then pySplitparams url else (url, [])
  ⟨scheme, netloc, pp.1, pp.2, query, fragment⟩

/-- `urllib.parse.urlunsplit`. -/
def urlunsplitModel (scheme netloc url query fragment : List Char) : List Char :=
  let url1 :=
    if netloc ≠ [] ∨ (scheme ≠ [] ∧ scheme ∈ usesNetlocList ∧ url.take 2 ≠ ['/', '/']) then
      '/' :: '/' :: (netloc ++ (if url ≠ [] ∧ url.take 1 ≠ ['/'] then '/' :: url else url))
    else url
  let url2 := if scheme ≠ [] then scheme ++ ':' :: url1 else url1
  let url3 := if query ≠ [] then url2 ++ '?' :: query else url2
  if fragment ≠ [] then url3 ++ '#' :: fragment else url3

/-- `urllib.parse.urlunparse`. -/
def urlunparseModel (scheme netloc path params query fragment : List Char) : List Char :=
  urlunsplitModel scheme netloc
    (if params ≠ [] then path ++ ';' :: params else path) query fragment

/-- A character that URL-normalisation treats inertly: above the
C0/space range and not Python whitespace (so strip, WHATWG cleanup and
tab/CR/LF removal all leave it alone). -/
def urlSafeChar (c : Char) : Bool := 0x20 < c.toNat && !pyIsSpace c

/-- The URL normalisation performed by `generate_base_document_id`:
lower, strip, parse, drop params and fragment, right-strip `'/'` from the
path, reassemble. -/
def normalizedUrlChars (su : List Char) : List Char :=
  let p := urlparseModel (pyStrip (pyLower su))
  urlunparseModel p.scheme p.netloc (rstripP (fun c => c = '/') p.path) [] p.query []

/-- `generate_base_document_id(source_url, max_length)`
(`function_app.py` lines 73-114).  `now` stands for
`datetime.datetime.utcnow().strftime("%Y%m%d_%H%M%S")`, the only
non-deterministic input, used when no (truthy) URL is given. -/
def generate_base_document_id (now : String) (source_url : Option String)
    (maxLen : Nat) : String :=
  let base :=
    match source_url with
    | some su =>
      if su.data ≠ [] then
        "doc_" ++ String.mk (sha256hex (utf8Bytes (normalizedUrlChars su.data)))
      else "doc_" ++ now
    | none => "doc_" ++ now
  if maxLen < base.length then String.mk (base.data.take maxLen) else base

/-! ## Python slicing and `generate_chunk_id_from_base`
(`function_app.py` lines 142-149) -/

/-- Python `s[:stop]` for an `int` stop (negative counts from the end,
clamped to the string). -/
def pySliceTo (l : List Char) (stop : Int) : List Char :=
  let n : Int := l.length
  let stopIdx : Int := if stop < 0 then max (n + stop) 0 else min stop n
  l.take stopIdx.toNat

/-- `generate_chunk_id_from_base(base_document_id, page_number, max_length)`.
Python default `max_length` is 1024. -/
def generate_chunk_id_from_base (base : String) (page : Nat) (maxLen : Nat) : String :=
  let chunk : String := "_chunk_" ++ toString page
  let doc := base ++ chunk
  if maxLen < doc.length then
    String.mk (pySliceTo base.data ((maxLen : Int) - chunk.length)) ++ chunk
  else doc

/-- `generate_chunk_id(source_url, page_number, max_length)`
(`function_app.py` lines 117-139). -/
def generate_chunk_id (now : String) (source_url : Option String)
    (page : Nat) (maxLen : Nat) : String :=
  let base_id := generate_base_document_id now source_url maxLen
  let chunk : String := "_chunk_" ++ toString page
  let document_id := base_id ++ chunk
  if maxLen < document_id.length then
    String.mk (pySliceTo base_id.data ((maxLen : Int) - chunk.length)) ++ chunk
  else document_id

/-! ## `split_markdown_by_pages` (`function_app.py` lines 317-361)

The tokenizer (`count_tokens`, which calls tiktoken) is an external
dependency and enters the model as a parameter `tc`. -/

/-- `l` begins with `p` (Python `startswith`). -/
def leadsWith : List Char → List Char → Bool
  | [], _ => true
  | _ :: _, [] => false
  | p :: ps, c :: cs => p = c && leadsWith ps cs

/-- Split at the first occurrence of the (non-empty) separator `sep`:
`some (before, after)` when it occurs. -/
def splitAtSeq (sep : List Char) : List Char → Option (List Char × List Char)
  | [] => none
  | c :: rest =>
    if leadsWith sep (c :: rest) then some ([], (c :: rest).drop sep.length)
    else (splitAtSeq sep rest).map (fun p => (c :: p.1, p.2))

/-- Python `s.split(sep)` for a non-empty separator (fuel-based; fuel
`s.length` always suffices since each separator consumes ≥ 1 character). -/
def splitOnSeq (sep : List Char) : Nat → List Char → List (List Char)
  | 0, l => [l]
  | fuel + 1, l =>
    match splitAtSeq sep l with
    | some (pre, post) => pre :: splitOnSeq sep fuel post
    | none => [l]

def pageBreakDelim : List Char := "<!-- PageBreak -->".data

def digitsToNat (l : List Char) : Nat :=
  l.foldl (fun acc c => acc * 10 + (c.toNat - 48)) 0

def pageNumberHead : List Char := "<!-- PageNumber=\x22".data

/-- `re.search(r'<!-- PageNumber="(\d+)" -->', section)`: scan left to
right for the literal head, a non-empty digit run, and the literal
closing `" -->`; return the number from the first full match.  (`\d` is
modelled as ASCII digits; Document Intelligence markers use those.) -/
def findPageNum : List Char → Option Nat
  | [] => none
  | c :: rest =>
    if leadsWith pageNumberHead (c :: rest) then
      let after := (c :: rest).drop pageNumberHead.length
      let run := after.takeWhile Char.isDigit
      if run ≠ [] ∧ leadsWith "\x22 -->".data (after.dropWhile Char.isDigit) then
        some (digitsToNat run)
      else findPageNum rest
    else findPageNum rest

def markerHeads : List (List Char) :=
  ["<!-- PageNumber=\x22", "<!-- PageHeader=\x22", "<!-- PageFooter=\x22"].map String.data

/-- Length of a match of `<!-- (PageNumber|PageHeader|PageFooter)="[^"]*" -->\s*`
starting at the head of `l`, if any. -/
def markerMatchLen (l : List Char) : Option Nat :=
  match markerHeads.find? (fun h => leadsWith h l) with
  | some h =>
    let after := l.drop h.length
    let body := after.takeWhile (fun c => c ≠ '\x22')
    let rest := after.drop body.length
    if leadsWith "\x22 -->".data rest then
      some (h.length + body.length + 5 + ((rest.drop 5).takeWhile pyIsSpace).length)
    else none
  | none => none

/-- `re.sub(r'<!-- (PageNumber|PageHeader|PageFooter)="[^"]*" -->\s*', '', content)`:
remove all non-overlapping matches, scanning left to right (fuel-based;
every match is ≥ 17 characters long so fuel `l.length` suffices). -/
def removeMarkers : Nat → List Char → List Char
  | 0, l => l
  | fuel + 1, l =>
    match l with
    | [] => []
    | c :: rest =>
      match markerMatchLen (c :: rest) with
      | some n => removeMarkers fuel ((c :: rest).drop n)
      | none => c :: removeMarkers fuel rest

/-- The body of the `for i, section in enumerate(page_sections)` loop:
skip sections blank after stripping, take the page number from the
marker (else the 1-based split position), strip metadata markers, and
keep the page only when the cleaned content is non-empty.
`batch_index` is initialised to 0; `group_pages_for_batch_embedding`
overwrites it on every emitted record. -/
def sectionRecord (tc : String → Nat) (base_id : String) (i : Nat)
    (sec : List Char) : Option PageRec :=
  if pyStrip sec = [] then none
  else
    let page_number := (findPageNum sec).getD (i + 1)
    let content := pyStrip (removeMarkers (pyStrip sec).length (pyStrip sec))
    if content = [] then none
    else some {
      document_id := generate_chunk_id_from_base base_id page_number 1024,
      page_number := page_number,
      markdown_content := String.mk content,
      token_count := tc (String.mk content),
      batch_index := 0 }

def buildPages (tc : String → Nat) (base_id : String) :
    Nat → List (List Char) → List PageRec
  | _, [] => []
  | i, sec :: rest =>
    match sectionRecord tc base_id i sec with
    | some r => r :: buildPages tc base_id (i + 1) rest
    | none => buildPages tc base_id (i + 1) rest

/-- `split_markdown_by_pages(full_markdown, source_url)`.  `now` is the
timestamp used by `generate_base_document_id` when the URL is absent. -/
def split_markdown_by_pages (tc : String → Nat) (now : String)
    (full_markdown : String) (source_url : Option String) : List PageRec :=
  let sections := splitOnSeq pageBreakDelim full_markdown.data.length full_markdown.data
  let base_id := generate_base_document_id now source_url 1024
  group_pages_for_batch_embedding 7500 2000 (buildPages tc base_id 0 sections)

/-! ## `document_analysis.py`: analyzer result shape -/

structure LLMAnalysis where
  summary : String
  key_topics : List String
  document_type : String
  published_date : String
  deriving DecidableEq, Repr

/-- The fallback dictionary built in `generate_single_shot_analysis`'s
`except` clause. -/
def degradedAnalysis : LLMAnalysis :=
  ⟨"Analysis failed", [], "Unknown", "00-00-0000"⟩

/-- `generate_single_shot_analysis(content, llm)`: the LLM call is the
parameter `llm` (`Except` models a raised exception); any failure is
caught and the degraded dictionary returned. -/
def generate_single_shot_analysis (llm : String → Except String LLMAnalysis)
    (content : String) : LLMAnalysis :=
  match llm content with
  | .ok r => r
  | .error _ => degradedAnalysis

structure AnalysisRecord where
  total_pages : Nat
  total_tokens : Nat
  summary : Option String
  key_topics : List String
  document_type : String
  published_date : String
  analysis_status : String
  error : Option String
  deriving DecidableEq, Repr

/-- `analyze_document_content(full_markdown, pages)` with its external
effects as parameters: `clientR` is `get_azure_openai_client()` (may
raise), `llm` the structured LLM call, `mapReduce` the whole of
`generate_map_reduce_summary` (its reduce call may raise).  Pages enter
as their token counts. -/
def analyze_document_content (clientR : Except String Unit)
    (llm : String → Except String LLMAnalysis)
    (mapReduce : String → Except String String)
    (full_markdown : String) (pageTokens : List Nat) : AnalysisRecord :=
  let total_pages := pageTokens.length
  let total_tokens := pageTokens.sum
  match clientR with
  | .error e =>
    ⟨total_pages, total_tokens, none, [], "Unknown", "00-00-0000", "failed", some e⟩
  | .ok _ =>
    let inner : Except String LLMAnalysis :=
      if total_tokens < 100000 then
        .ok (generate_single_shot_analysis llm full_markdown)
      else
        (mapReduce full_markdown).map (generate_single_shot_analysis llm)
    match inner with
    | .error e =>
      ⟨total_pages, total_tokens, none, [], "Unknown", "00-00-0000", "failed", some e⟩
    | .ok r =>
      ⟨total_pages, total_tokens, some (_clean_summary_text r.summary), r.key_topics,
        r.document_type, r.published_date, "success", none⟩

/-! ## `normalize_published_date_value` (`search_utils.py` lines 97-150) -/

/-- A JSON-derived Python value reaching the normalizer: `None`, a
string, or anything else (numbers, lists, ...; `datetime` values cannot
arrive through `req.get_json()`). -/
inductive PyVal where
  | vnone
  | vstr (s : String)
  | vother
  deriving DecidableEq, Repr

/-- `re.match(r"^\d{4}-\d{2}-\d{2}T", s)`. -/
def isoPrefixT (l : List Char) : Bool :=
  match l with
  | a :: b :: c :: d :: '-' :: e :: f :: '-' :: g :: h :: 'T' :: _ =>
    a.isDigit && b.isDigit && c.isDigit && d.isDigit &&
    e.isDigit && f.isDigit && g.isDigit && h.isDigit
  | _ => false

/-- `re.match(r"^\d{4}-\d{2}-\d{2}$", s)`. -/
def isoDateOnly (l : List Char) : Bool :=
  match l with
  | [a, b, c, d, '-', e, f, '-', g, h] =>
    a.isDigit && b.isDigit && c.isDigit && d.isDigit &&
    e.isDigit && f.isDigit && g.isDigit && h.isDigit
  | _ => false

/-- `re.match(r"^\d{2}-\d{2}-\d{4}$", s)`. -/
def twoTwoFour (l : List Char) : Bool :=
  match l with
  | [a, b, '-', c, d, '-', e, f, g, h] =>
    a.isDigit && b.isDigit && c.isDigit && d.isDigit &&
    e.isDigit && f.isDigit && g.isDigit && h.isDigit
  | _ => false

/-- A numeric `strptime` field: the maximal digit run, which must be
non-empty, at most `maxLen` digits, and in `[lo, hi]` (this is exactly
CPython `_strptime`'s `%m`/`%d` regexes, since in every format used here
the field is followed by a non-digit literal or the end). -/
def parseField (lo hi maxLen : Nat) (l : List Char) : Option (Nat × List Char) :=
  let run := l.takeWhile Char.isDigit
  if run ≠ [] ∧ run.length ≤ maxLen ∧ lo ≤ digitsToNat run ∧ digitsToNat run ≤ hi then
    some (digitsToNat run, l.dropWhile Char.isDigit)
  else none

/-- `%Y`: exactly four digits. -/
def parseYearField (l : List Char) : Option (Nat × List Char) :=
  let run := l.takeWhile Char.isDigit
  if run.length = 4 then some (digitsToNat run, l.dropWhile Char.isDigit)
  else none

def parseMonthField : List Char → Option (Nat × List Char) := parseField 1 12 2

def parseDayField : List Char → Option (Nat × List Char) := parseField 1 31 2

def expectChar (c : Char) : List Char → Option (List Char)
  | [] => none
  | a :: rest => if a = c then some rest else none

def isLeap (y : Nat) : Bool := (y % 4 = 0 && y % 100 ≠ 0) || y % 400 = 0

def daysInMonth (y m : Nat) : Nat :=
  if m = 2 then (if isLeap y then 29 else 28)
  else if m = 4 ∨ m = 6 ∨ m = 9 ∨ m = 11 then 30
  else 31

/-- The calendar validation `datetime.datetime(y, m, d)` performs. -/
def validDate (y m d : Nat) : Bool :=
  1 ≤ y && y ≤ 9999 && 1 ≤ m && m ≤ 12 && 1 ≤ d && d ≤ daysInMonth y m

/-- Field order of a date format. -/
inductive DOrder where
  | ymd
  | mdy
  | dmy
  deriving DecidableEq, Repr

/-- The regex phase of `strptime`: three numeric fields joined by a
separator, the whole string consumed. -/
def strptimeFields (ord : DOrder) (sep : Char) (l : List Char) :
    Option (Nat × Nat × Nat) :=
  match ord with
    | .ymd => do
      let (y, r1) ← parseYearField l
      let r2 ← expectChar sep r1
      let (m, r3) ← parseMonthField r2
      let r4 ← expectChar sep r3
      let (d, r5) ← parseDayField r4
      if r5 = [] then some (y, m, d) else none
    | .mdy => do
      let (m, r1) ← parseMonthField l
      let r2 ← expectChar sep r1
      let (d, r3) ← parseDayField r2
      let r4 ← expectChar sep r3
      let (y, r5) ← parseYearField r4
      if r5 = [] then some (y, m, d) else none
    | .dmy => do
      let (d, r1) ← parseDayField l
      let r2 ← expectChar sep r1
      let (m, r3) ← parseMonthField r2
      let r4 ← expectChar sep r3
      let (y, r5) ← parseYearField r4
      if r5 = [] then some (y, m, d) else none

/-- `datetime.datetime.strptime(s, fmt)` restricted to the five formats
used by the normalizer: the regex phase, then the calendar validation
the `datetime` constructor performs. -/
def strptimeDate (ord : DOrder) (sep : Char) (l : List Char) :
    Option (Nat × Nat × Nat) :=
  match strptimeFields ord sep l with
  | some (y, m, d) => if validDate y m d then some (y, m, d) else none
  | none => none

def pad2 (n : Nat) : String := if n < 10 then "0" ++ toString n else toString n

def pad4 (n : Nat) : String :=
  if n < 10 then "000" ++ toString n
  else if n < 100 then "00" ++ toString n
  else if n < 1000 then "0" ++ toString n
  else toString n

/-- `dt.replace(tzinfo=utc).isoformat().replace("+00:00", "Z")` for a
midnight date. -/
def fmtDate (y m d : Nat) : String :=
  pad4 y ++ "-" ++ pad2 m ++ "-" ++ pad2 d ++ "T00:00:00Z"

/-- The tuple `date_formats` in source order. -/
def dateFormats : List (DOrder × Char) :=
  [(.ymd, '/'), (.mdy, '-'), (.dmy, '-'), (.mdy, '/'), (.dmy, '/')]

def tryFormatsGo : List (DOrder × Char) → List Char → Option String
  | [], _ => none
  | (ord, sep) :: rest, l =>
    match strptimeDate ord sep l with
    | some (y, m, d) => some (fmtDate y m d)
    | none => tryFormatsGo rest l

/-- `normalize_published_date_value(val)` (`search_utils.py` lines
97-150). -/
def normalize_published_date_value : PyVal → Option String
  | .vnone => none
  | .vother => none
  | .vstr v =>
    let s := pyStrip v.data
    if s = [] then none
    else if s = "00-00-0000".data ∨ s = "0000-00-00".data ∨ s = "00/00/0000".data then
      none
    else if isoPrefixT s then some (String.mk s)
    else if isoDateOnly s then some (String.mk s ++ "T00:00:00Z")
    else
      match tryFormatsGo dateFormats s with
      | some out => some out
      | none =>
        if twoTwoFour s then
          match strptimeDate .mdy '-' s with
          | some (y, m, d) => some (fmtDate y m d)
          | none => none
        else none

/-- The canonical output shape `YYYY-MM-DDT00:00:00Z` with a valid
calendar date. -/
def isCanonicalIsoZ (s : String) : Bool :=
  match s.data with
  | [y1, y2, y3, y4, '-', m1, m2, '-', d1, d2,
     'T', '0', '0', ':', '0', '0', ':', '0', '0', 'Z'] =>
    y1.isDigit && y2.isDigit && y3.isDigit && y4.isDigit &&
    m1.isDigit && m2.isDigit && d1.isDigit && d2.isDigit &&
    validDate (digitsToNat [y1, y2, y3, y4]) (digitsToNat [m1, m2])
      (digitsToNat [d1, d2])
  | _ => false

/-! ### Splitting and scanning lemmas for the URL model -/

theorem splitAtFirst_eq_none {c : Char} {a : List Char} (h : c ∉ a) :
    splitAtFirst c a = none := by
  induction a with
  | nil => rfl
  | cons d a ih =>
    rw [splitAtFirst]
    rw [if_neg (by intro hd; exact h (hd ▸ List.mem_cons_self d a))]
    rw [ih (fun hc => h (List.mem_cons_of_mem d hc))]
    rfl

theorem splitAtFirst_shape {c : Char} {a p q : List Char}
    (h : splitAtFirst c a = some (p, q)) : a = p ++ c :: q ∧ c ∉ p := by
  induction a generalizing p q with
  | nil => cases h
  | cons d a ih =>
    rw [splitAtFirst] at h
    by_cases hd : d = c
    · rw [if_pos hd] at h
      simp only [Option.some.injEq, Prod.mk.injEq] at h
      obtain ⟨rfl, rfl⟩ := h
      simp [hd]
    · rw [if_neg hd] at h
      rcases hs : splitAtFirst c a with _ | ⟨p1, q1⟩
      · rw [hs] at h; cases h
      · rw [hs] at h
        simp at h
        obtain ⟨rfl, rfl⟩ := h
        obtain ⟨ha, hnp⟩ := ih hs
        refine ⟨by simp [ha], ?_⟩
        intro hm
        rcases List.mem_cons.mp hm with h1 | h1
        · exact hd h1.symm
        · exact hnp h1

theorem splitAtFirst_append_some {c : Char} {a b p q : List Char}
    (h : splitAtFirst c a = some (p, q)) :
    splitAtFirst c (a ++ b) = some (p, q ++ b) := by
  induction a generalizing p q with
  | nil => cases h
  | cons d a ih =>
    rw [splitAtFirst] at h
    rw [List.cons_append, splitAtFirst]
    by_cases hd : d = c
    · rw [if_pos hd] at h ⊢
      simp only [Option.some.injEq, Prod.mk.injEq] at h
      obtain ⟨rfl, rfl⟩ := h
      rfl
    · rw [if_neg hd] at h ⊢
      rcases hs : splitAtFirst c a with _ | ⟨p1, q1⟩
      · rw [hs] at h; cases h
      · rw [hs] at h
        simp at h
        obtain ⟨rfl, rfl⟩ := h
        rw [ih hs]
        rfl

theorem splitAtFirst_append_none {c : Char} {a : List Char} (b : List Char)
    (h : splitAtFirst c a = none) :
    splitAtFirst c (a ++ b) =
      (splitAtFirst c b).map (fun r => (a ++ r.1, r.2)) := by
  induction a with
  | nil =>
    simp only [List.nil_append]
    rcases hs : splitAtFirst c b with _ | ⟨p1, q1⟩ <;> simp
  | cons d a ih =>
    rw [splitAtFirst] at h
    rw [List.cons_append, splitAtFirst]
    by_cases hd : d = c
    · rw [if_pos hd] at h; cases h
    · rw [if_neg hd] at h ⊢
      rcases hs : splitAtFirst c a with _ | ⟨p1, q1⟩
      · rw [ih hs]
        rcases splitAtFirst c b with _ | r <;> simp
      · rw [hs] at h; cases h

theorem splitAtFirst_at_sep {c : Char} {a : List Char} (b : List Char)
    (h : c ∉ a) : splitAtFirst c (a ++ c :: b) = some (a, b) := by
  rw [splitAtFirst_append_none (c :: b) (splitAtFirst_eq_none h)]
  rw [splitAtFirst, if_pos rfl]
  simp

theorem takeWhile_append_all {p : Char → Bool} {a : List Char} (b : List Char)
    (h : ∀ c ∈ a, p c = true) :
    (a ++ b).takeWhile p = a ++ b.takeWhile p := by
  induction a with
  | nil => simp
  | cons d a ih =>
    rw [List.cons_append, List.takeWhile_cons,
      if_pos (h d (List.mem_cons_self d a)), ih (fun c hc => h c (List.mem_cons_of_mem d hc))]
    rfl

theorem dropWhile_append_all {p : Char → Bool} {a : List Char} (b : List Char)
    (h : ∀ c ∈ a, p c = true) :
    (a ++ b).dropWhile p = b.dropWhile p := by
  induction a with
  | nil => simp
  | cons d a ih =>
    rw [List.cons_append, List.dropWhile_cons,
      if_pos (h d (List.mem_cons_self d a))]
    exact ih (fun c hc => h c (List.mem_cons_of_mem d hc))

theorem takeWhile_append_stop {p : Char → Bool} {a : List Char} (b : List Char)
    (h : a.dropWhile p ≠ []) :
    (a ++ b).takeWhile p = a.takeWhile p := by
  induction a with
  | nil => simp at h
  | cons d a ih =>
    rw [List.cons_append, List.takeWhile_cons, List.takeWhile_cons]
    rw [List.dropWhile_cons] at h
    by_cases hd : p d = true
    · rw [if_pos hd] at h
      rw [if_pos hd, if_pos hd, ih h]
    · rw [if_neg hd, if_neg hd]

theorem dropWhile_append_stop {p : Char → Bool} {a : List Char} (b : List Char)
    (h : a.dropWhile p ≠ []) :
    (a ++ b).dropWhile p = a.dropWhile p ++ b := by
  induction a with
  | nil => simp at h
  | cons d a ih =>
    rw [List.cons_append, List.dropWhile_cons, List.dropWhile_cons]
    rw [List.dropWhile_cons] at h
    by_cases hd : p d = true
    · rw [if_pos hd] at h
      rw [if_pos hd, if_pos hd]
      exact ih h
    · rw [if_neg hd, if_neg hd]
      rfl

theorem rstripP_cons_of_not {p : Char → Bool} {c : Char} (l : List Char)
    (hc : p c = false) : rstripP p (c :: l) = c :: rstripP p l := by
  have := rstripP_append p [c] l
  rw [List.singleton_append] at this
  rw [this]
  have hone : rstripP p [c] = [c] := by
    apply rstripP_eq_self_of_getLast
    intro _
    simp [hc]
  by_cases hr : rstripP p l = []
  · rw [if_pos hr, hone, hr]
  · rw [if_neg hr]
    rfl

/-! ### Safe characters -/

theorem urlSafeChar_props {c : Char} (h : urlSafeChar c = true) :
    0x20 < c.toNat ∧ pyIsSpace c = false := by
  simpa [urlSafeChar] using h

theorem urlSafe_not_space {c : Char} (h : urlSafeChar c = true) :
    pyIsSpace c = false := (urlSafeChar_props h).2

theorem urlSafe_not_c0 {c : Char} (h : urlSafeChar c = true) :
    isC0OrSpace c = false := by
  have h1 := (urlSafeChar_props h).1
  simp only [isC0OrSpace, decide_eq_false_iff_not]
  omega

theorem urlSafe_kept_byte {c : Char} (h : urlSafeChar c = true) :
    isUnsafeUrlByte c = false := by
  have h1 := (urlSafeChar_props h).1
  simp only [isUnsafeUrlByte, Bool.or_eq_false_iff, decide_eq_false_iff_not]
  refine ⟨⟨?_, ?_⟩, ?_⟩ <;> intro h2 <;> subst h2 <;> exact absurd h1 (by decide)

/-! ### Cleanup and strip on safe prefixes -/

theorem urlCleanup_safe_append {w : List Char} (y : List Char)
    (hne : w ≠ []) (hsafe : ∀ c ∈ w, urlSafeChar c = true) :
    urlCleanup (w ++ y) = w ++ y.filter (fun c => !isUnsafeUrlByte c) := by
  unfold urlCleanup
  rcases w with _ | ⟨c, w'⟩
  · exact absurd rfl hne
  · have hc := hsafe c (List.mem_cons_self c w')
    have hw' : ∀ a ∈ w', urlSafeChar a = true :=
      fun a ha => hsafe a (List.mem_cons_of_mem c ha)
    rw [List.cons_append, List.dropWhile_cons, if_neg (by simp [urlSafe_not_c0 hc])]
    rw [List.filter_cons, if_pos (by simp [urlSafe_kept_byte hc])]
    rw [List.filter_append]
    rw [List.filter_eq_self.mpr (fun a ha => by simp [urlSafe_kept_byte (hw' a ha)])]
    rfl

theorem urlCleanup_safe {w : List Char} (hne : w ≠ [])
    (hsafe : ∀ c ∈ w, urlSafeChar c = true) : urlCleanup w = w := by
  have := urlCleanup_safe_append [] hne hsafe
  simpa using this

theorem pyStrip_safe {w : List Char} (hne : w ≠ [])
    (hsafe : ∀ c ∈ w, urlSafeChar c = true) : pyStrip w = w := by
  rcases w with _ | ⟨c, w'⟩
  · exact absurd rfl hne
  · have hc := hsafe c (List.mem_cons_self c w')
    unfold pyStrip lstripP
    rw [List.dropWhile_cons, if_neg (by simp [urlSafe_not_space hc])]
    exact rstripP_eq_self_of_getLast (fun hl => by
      simp [urlSafe_not_space (hsafe _ (List.getLast_mem hl))])

theorem pyStrip_safe_append {w : List Char} {c : Char} (l : List Char)
    (hne : w ≠ []) (hsafe : ∀ a ∈ w, urlSafeChar a = true)
    (hc : pyIsSpace c = false) :
    pyStrip (w ++ c :: l) = w ++ c :: rstripP pyIsSpace l := by
  unfold pyStrip lstripP
  rcases w with _ | ⟨d, w'⟩
  · exact absurd rfl hne
  · rw [List.cons_append, List.dropWhile_cons,
      if_neg (by simp [urlSafe_not_space (hsafe d (List.mem_cons_self d w'))])]
    rw [show (d :: (w' ++ c :: l) : List Char) = (d :: w') ++ c :: l from rfl]
    rw [rstripP_append]
    rw [if_neg (by rw [rstripP_cons_of_not l hc]; simp)]
    rw [rstripP_cons_of_not l hc]

/-! ### The URL stages on `w ++ x` for a delimiter-headed suffix `x` -/

/-- Appending a suffix that cannot form a valid scheme leaves the scheme
untouched and lands the suffix at the end of the remainder. -/
theorem schemeSplit_append (w x : List Char)
    (hxs : ∀ p q, splitAtFirst ':' x = some (p, q) →
      ∃ c ∈ p, isSchemeChar c = false) :
    (schemeSplit (w ++ x)).1 = (schemeSplit w).1 ∧
    (schemeSplit (w ++ x)).2 = (schemeSplit w).2 ++ x ∧
    ∀ c ∈ (schemeSplit w).2, c ∈ w := by
  unfold schemeSplit
  rcases hw : splitAtFirst ':' w with _ | ⟨pre, post⟩
  · rw [splitAtFirst_append_none x hw]
    rcases hx : splitAtFirst ':' x with _ | ⟨p1, q1⟩
    · exact ⟨rfl, rfl, fun c hc => hc⟩
    · obtain ⟨c, hcp, hcbad⟩ := hxs p1 q1 hx
      have hval : ¬(w ++ p1 ≠ [] ∧ isAsciiAlpha ((w ++ p1).headD ' ') = true ∧
          (w ++ p1).all isSchemeChar = true) := by
        rintro ⟨h1, h2, h3⟩
        have := List.all_eq_true.mp h3 c (List.mem_append_right w hcp)
        rw [hcbad] at this
        cases this
      simp only [Option.map_some']
      rw [if_neg hval]
      exact ⟨rfl, rfl, fun c hc => hc⟩
  · rw [splitAtFirst_append_some hw]
    obtain ⟨hshape, hnp⟩ := splitAtFirst_shape hw
    dsimp only
    by_cases hval : pre ≠ [] ∧ isAsciiAlpha (pre.headD ' ') = true ∧
        pre.all isSchemeChar = true
    · rw [if_pos hval, if_pos hval]
      refine ⟨rfl, rfl, fun c hc => ?_⟩
      rw [hshape]
      exact List.mem_append_right pre (List.mem_cons_of_mem ':' hc)
    · rw [if_neg hval, if_neg hval]
      exact ⟨rfl, rfl, fun c hc => hc⟩

/-- Appending a delimiter-headed suffix to the post-scheme remainder
leaves the netloc untouched; the rest either carries the suffix at its
end, or (only for `t = ['/']` and suffix `['/']`) the pair hits the
`'//'` corner. -/
theorem netlocSplit_append (t : List Char) (x0 : Char) (xs : List Char)
    (hd : isNetlocDelim x0 = true) (hxs1 : x0 = '/' → xs = []) :
    (netlocSplit (t ++ x0 :: xs)).1 = (netlocSplit t).1 ∧
    (((netlocSplit (t ++ x0 :: xs)).2 = (netlocSplit t).2 ++ x0 :: xs ∧
        ∀ c ∈ (netlocSplit t).2, c ∈ t) ∨
      (t = ['/'] ∧ x0 = '/' ∧ xs = [] ∧
        (netlocSplit (t ++ x0 :: xs)).1 = [] ∧
        (netlocSplit (t ++ x0 :: xs)).2 = [] ∧
        (netlocSplit t).1 = [] ∧ (netlocSplit t).2 = ['/'])) := by
  have hpx0 : (fun c => !isNetlocDelim c) x0 = false := by simp [hd]
  rcases t with _ | ⟨c, t1⟩
  · -- t = []
    unfold netlocSplit
    have hno : ((x0 :: xs).take 2 : List Char) ≠ ['/', '/'] := by
      by_cases hx0 : x0 = '/'
      · rw [hxs1 hx0, hx0]
        decide
      · rcases xs with _ | ⟨d, xs1⟩ <;> simp [List.take_cons]
        intro h
        exact absurd h hx0
    rw [List.nil_append, if_neg hno, if_neg (by decide)]
    exact ⟨rfl, Or.inl ⟨rfl, by simp⟩⟩
  · rcases t1 with _ | ⟨d, t2⟩
    · -- t = [c]
      by_cases hcorner : c = '/' ∧ x0 = '/'
      · obtain ⟨rfl, rfl⟩ := hcorner
        rw [hxs1 rfl]
        unfold netlocSplit
        rw [show (['/'] ++ ['/'] : List Char) = ['/', '/'] from rfl]
        rw [if_pos (by decide), if_neg (by decide)]
        exact ⟨rfl, Or.inr ⟨rfl, rfl, rfl, rfl, rfl, rfl, rfl⟩⟩
      · unfold netlocSplit
        have hno : (([c] ++ x0 :: xs).take 2 : List Char) ≠ ['/', '/'] := by
          simp only [List.cons_append, List.nil_append, List.take_cons]
          intro h
          injection h with h1 h2
          rcases xs with _ | ⟨e, xs1⟩ <;> simp [List.take_cons] at h2 <;>
            exact hcorner ⟨h1, h2⟩
        have hno1 : (([c] : List Char).take 2) ≠ ['/', '/'] := by
          simp [List.take_cons]
        rw [if_neg hno, if_neg hno1]
        exact ⟨rfl, Or.inl ⟨rfl, fun a ha => ha⟩⟩
    · -- t = c :: d :: t2
      unfold netlocSplit
      have htake : ((c :: d :: t2) ++ x0 :: xs).take 2 = [c, d] := rfl
      have htake2 : ((c :: d :: t2) : List Char).take 2 = [c, d] := rfl
      rw [show ((c :: d :: t2) ++ x0 :: xs : List Char) =
        c :: d :: (t2 ++ x0 :: xs) from rfl]
      by_cases hcd : ([c, d] : List Char) = ['/', '/']
      · rw [if_pos (by rw [show ((c :: d :: (t2 ++ x0 :: xs)).take 2 : List Char) = [c, d] from rfl]; exact hcd)]
        rw [if_pos (by rw [htake2]; exact hcd)]
        simp only [List.drop_succ_cons, List.drop_zero]
        by_cases hemp : t2.dropWhile (fun c => !isNetlocDelim c) = []
        · have hall : ∀ a ∈ t2, (fun c => !isNetlocDelim c) a = true :=
            List.dropWhile_eq_nil_iff.mp hemp
          rw [takeWhile_append_all _ hall, dropWhile_append_all _ hall]
          rw [List.takeWhile_cons, if_neg (by simp [hd]), List.dropWhile_cons,
            if_neg (by simp [hd])]
          refine ⟨by simp [List.takeWhile_eq_self_iff.mpr hall], Or.inl ⟨?_, ?_⟩⟩
          · rw [hemp]
            rfl
          · intro a ha
            rw [hemp] at ha
            cases ha
        · rw [takeWhile_append_stop _ hemp, dropWhile_append_stop _ hemp]
          refine ⟨rfl, Or.inl ⟨rfl, fun a ha => ?_⟩⟩
          exact List.mem_cons_of_mem c (List.mem_cons_of_mem d
            ((List.dropWhile_suffix _).sublist.subset ha))
      · rw [if_neg (by rw [show ((c :: d :: (t2 ++ x0 :: xs)).take 2 : List Char) = [c, d] from rfl]; exact hcd)]
        rw [if_neg (by rw [htake2]; exact hcd)]
        exact ⟨rfl, Or.inl ⟨rfl, fun a ha => ha⟩⟩

/-- Appending `'#' :: g` to a safe, `'#'`-free locator changes only the
fragment component of the parse. -/
theorem urlparse_frag_insensitive (w g : List Char) (hne : w ≠ [])
    (hsafe : ∀ c ∈ w, urlSafeChar c = true) (hhash : '#' ∉ w) :
    (urlparseModel (w ++ '#' :: g)).scheme = (urlparseModel w).scheme ∧
    (urlparseModel (w ++ '#' :: g)).netloc = (urlparseModel w).netloc ∧
    (urlparseModel (w ++ '#' :: g)).path = (urlparseModel w).path ∧
    (urlparseModel (w ++ '#' :: g)).params = (urlparseModel w).params ∧
    (urlparseModel (w ++ '#' :: g)).query = (urlparseModel w).query := by
  have hclean : urlCleanup (w ++ '#' :: g) =
      w ++ '#' :: g.filter (fun c => !isUnsafeUrlByte c) := by
    rw [urlCleanup_safe_append ('#' :: g) hne hsafe]
    rw [List.filter_cons, if_pos (by decide)]
  have hcleanw : urlCleanup w = w := urlCleanup_safe hne hsafe
  obtain ⟨hs1, hs2, hsubW⟩ :=
    schemeSplit_append w ('#' :: g.filter (fun c => !isUnsafeUrlByte c))
      (by
        intro p q hpq
        rw [splitAtFirst, if_neg (by decide)] at hpq
        rcases hsg : splitAtFirst ':' (g.filter fun c => !isUnsafeUrlByte c)
          with _ | ⟨p1, q1⟩
        · rw [hsg] at hpq
          cases hpq
        · rw [hsg] at hpq
          simp at hpq
          obtain ⟨rfl, rfl⟩ := hpq
          exact ⟨'#', List.mem_cons_self _ _, by decide⟩)
  obtain ⟨hn1, hn2⟩ :=
    netlocSplit_append (schemeSplit w).2 '#' (g.filter fun c => !isUnsafeUrlByte c)
      (by decide) (fun h => absurd h (by decide))
  rcases hn2 with ⟨hn2, hsubT⟩ | ⟨_, habs, _⟩
  swap
  · exact absurd habs (by decide)
  have hv : '#' ∉ (netlocSplit (schemeSplit w).2).2 :=
    fun hc => hhash (hsubW _ (hsubT _ hc))
  have hfragL : fragSplit ((netlocSplit (schemeSplit w).2).2 ++
      '#' :: (g.filter fun c => !isUnsafeUrlByte c)) =
      ((netlocSplit (schemeSplit w).2).2, g.filter fun c => !isUnsafeUrlByte c) := by
    unfold fragSplit
    rw [splitAtFirst_at_sep _ hv]
  have hfragR : fragSplit (netlocSplit (schemeSplit w).2).2 =
      ((netlocSplit (schemeSplit w).2).2, []) := by
    unfold fragSplit
    rw [splitAtFirst_eq_none hv]
  have hL : urlsplitModel (w ++ '#' :: g) =
      ((schemeSplit w).1, (netlocSplit (schemeSplit w).2).1,
       (querySplit (netlocSplit (schemeSplit w).2).2).1,
       (querySplit (netlocSplit (schemeSplit w).2).2).2,
       g.filter (fun c => !isUnsafeUrlByte c)) := by
    simp only [urlsplitModel]
    rw [hclean, hs2, hs1, hn2, hn1, hfragL]
  have hR : urlsplitModel w =
      ((schemeSplit w).1, (netlocSplit (schemeSplit w).2).1,
       (querySplit (netlocSplit (schemeSplit w).2).2).1,
       (querySplit (netlocSplit (schemeSplit w).2).2).2, []) := by
    simp only [urlsplitModel]
    rw [hcleanw, hfragR]
  simp [urlparseModel, hL, hR]

/-- Appending a trailing `'/'` to a safe locator free of `'#'`, `'?'`
and `';'` leaves the parse equal up to a trailing slash on the path
(which the normaliser strips). -/
theorem urlparse_slash_insensitive (w : List Char) (hne : w ≠ [])
    (hsafe : ∀ c ∈ w, urlSafeChar c = true) (hhash : '#' ∉ w) (hq : '?' ∉ w)
    (hsemi : ';' ∉ w) :
    (urlparseModel (w ++ ['/'])).scheme = (urlparseModel w).scheme ∧
    (urlparseModel (w ++ ['/'])).netloc = (urlparseModel w).netloc ∧
    rstripP (fun c => c = '/') (urlparseModel (w ++ ['/'])).path =
      rstripP (fun c => c = '/') (urlparseModel w).path ∧
    (urlparseModel (w ++ ['/'])).params = (urlparseModel w).params ∧
    (urlparseModel (w ++ ['/'])).query = (urlparseModel w).query := by
  have hclean : urlCleanup (w ++ ['/']) = w ++ ['/'] := by
    rw [urlCleanup_safe_append ['/'] hne hsafe]
    rfl
  have hcleanw : urlCleanup w = w := urlCleanup_safe hne hsafe
  have hnone : splitAtFirst ':' (['/'] : List Char) = none := rfl
  obtain ⟨hs1, hs2, hsubW⟩ :=
    schemeSplit_append w ['/']
      (by
        intro p q hpq
        rw [hnone] at hpq
        cases hpq)
  obtain ⟨hn1, hn2⟩ :=
    netlocSplit_append (schemeSplit w).2 '/' [] (by decide) (fun _ => rfl)
  rcases hn2 with ⟨hn2, hsubT⟩ | ⟨ht, _, _, hnl1, hnl2, hnr1, hnr2⟩
  · -- normal case
    have hsubV : ∀ c ∈ (netlocSplit (schemeSplit w).2).2, c ∈ w :=
      fun c hc => hsubW _ (hsubT _ hc)
    have hvhash : '#' ∉ ((netlocSplit (schemeSplit w).2).2 ++ ['/'] : List Char) := by
      intro hc
      rcases List.mem_append.mp hc with hc | hc
      · exact hhash (hsubV _ hc)
      · simp at hc
    have hvq : '?' ∉ ((netlocSplit (schemeSplit w).2).2 ++ ['/'] : List Char) := by
      intro hc
      rcases List.mem_append.mp hc with hc | hc
      · exact hq (hsubV _ hc)
      · simp at hc
    have hvhashR : '#' ∉ (netlocSplit (schemeSplit w).2).2 :=
      fun hc => hhash (hsubV _ hc)
    have hvqR : '?' ∉ (netlocSplit (schemeSplit w).2).2 :=
      fun hc => hq (hsubV _ hc)
    have hL : urlsplitModel (w ++ ['/']) =
        ((schemeSplit w).1, (netlocSplit (schemeSplit w).2).1,
         (netlocSplit (schemeSplit w).2).2 ++ ['/'], [], []) := by
      simp only [urlsplitModel]
      rw [hclean, hs2, hs1, hn2, hn1]
      unfold fragSplit querySplit
      rw [splitAtFirst_eq_none hvhash, splitAtFirst_eq_none hvq]
    have hR : urlsplitModel w =
        ((schemeSplit w).1, (netlocSplit (schemeSplit w).2).1,
         (netlocSplit (schemeSplit w).2).2, [], []) := by
      simp only [urlsplitModel]
      rw [hcleanw]
      unfold fragSplit querySplit
      rw [splitAtFirst_eq_none hvhashR, splitAtFirst_eq_none hvqR]
    have hsemiL : ¬((schemeSplit w).1 ∈ usesParamsList ∧
        ';' ∈ ((netlocSplit (schemeSplit w).2).2 ++ ['/'] : List Char)) := by
      rintro ⟨_, hmem⟩
      rcases List.mem_append.mp hmem with hc | hc
      · exact hsemi (hsubV _ hc)
      · simp at hc
    have hsemiR : ¬((schemeSplit w).1 ∈ usesParamsList ∧
        ';' ∈ (netlocSplit (schemeSplit w).2).2) := by
      rintro ⟨_, hmem⟩
      exact hsemi (hsubV _ hmem)
    have hrs : rstripP (fun c => c = '/')
        ((netlocSplit (schemeSplit w).2).2 ++ ['/']) =
        rstripP (fun c => c = '/') (netlocSplit (schemeSplit w).2).2 := by
      rw [rstripP_append]
      rw [if_pos (by decide)]
    simp [urlparseModel, hL, hR, hsemiL, hsemiR, hrs]
  · -- corner: post-scheme remainder is exactly "/"
    have hL : urlsplitModel (w ++ ['/']) =
        ((schemeSplit w).1, [], [], [], []) := by
      simp only [urlsplitModel]
      rw [hclean, hs2, hs1]
      rw [show ((schemeSplit w).2 ++ ['/'] : List Char) =
        (schemeSplit w).2 ++ '/' :: [] from rfl] at hnl1 hnl2 ⊢
      rw [hnl2, hnl1]
      rfl
    have hR : urlsplitModel w =
        ((schemeSplit w).1, [], ['/'], [], []) := by
      simp only [urlsplitModel]
      rw [hcleanw, hnr2, hnr1]
      rfl
    have hsemiL : ¬((schemeSplit w).1 ∈ usesParamsList ∧ ';' ∈ ([] : List Char)) := by
      rintro ⟨_, hmem⟩
      cases hmem
    have hsemiR : ¬((schemeSplit w).1 ∈ usesParamsList ∧ ';' ∈ (['/'] : List Char)) := by
      rintro ⟨_, hmem⟩
      simp at hmem
    have hrs : rstripP (fun c => c = '/') (['/'] : List Char) = [] := by decide
    have hrs0 : rstripP (fun c => c = '/') ([] : List Char) = [] := rfl
    simp [urlparseModel, hL, hR, hsemiL, hsemiR, hrs, hrs0]

/-- Two present locators with the same normalised URL get the same base
document id. -/
theorem base_id_congr (now : String) (u1 u2 : String) (h1 : u1.data ≠ [])
    (h2 : u2.data ≠ [])
    (h : normalizedUrlChars u1.data = normalizedUrlChars u2.data) (maxLen : Nat) :
    generate_base_document_id now (some u1) maxLen =
      generate_base_document_id now (some u2) maxLen := by
  unfold generate_base_document_id
  have hb : (if u1.data ≠ [] then
        "doc_" ++ String.mk (sha256hex (utf8Bytes (normalizedUrlChars u1.data)))
      else "doc_" ++ now) =
      (if u2.data ≠ [] then
        "doc_" ++ String.mk (sha256hex (utf8Bytes (normalizedUrlChars u2.data)))
      else "doc_" ++ now) := by
    rw [if_pos h1, if_pos h2, h]
  exact congrArg
    (fun base => if maxLen < base.length then String.mk (base.data.take maxLen) else base) hb

/-! ## The claims -/

/-- C10: the one-step chunk-id builder `generate_chunk_id` equals the
composition of `generate_base_document_id` and
`generate_chunk_id_from_base` at the same `max_length`, for every source
locator (present or not), page number and ceiling. -/
theorem c10_chunk_id_refines_composition (now : String) (url : Option String)
    (page maxLen : Nat) :
    generate_chunk_id now url page maxLen =
      generate_chunk_id_from_base (generate_base_document_id now url maxLen)
        page maxLen := rfl

/-- For a present (non-empty) locator, `generate_base_document_id` does not
depend on the timestamp parameter — the hash branch never reads it. -/
theorem base_id_time_independent (now1 now2 : String) (u : String)
    (hu : u.data ≠ []) (maxLen : Nat) :
    generate_base_document_id now1 (some u) maxLen =
      generate_base_document_id now2 (some u) maxLen := by
  unfold generate_base_document_id
  have h : (if u.data ≠ [] then
        "doc_" ++ String.mk (sha256hex (utf8Bytes (normalizedUrlChars u.data)))
      else "doc_" ++ now1) =
      (if u.data ≠ [] then
        "doc_" ++ String.mk (sha256hex (utf8Bytes (normalizedUrlChars u.data)))
      else "doc_" ++ now2) := by
    rw [if_pos hu, if_pos hu]
  exact congrArg
    (fun base => if maxLen < base.length then String.mk (base.data.take maxLen) else base) h

/-- C9: for a present (non-empty) source locator, the composed identifier
`chunkId(baseId(L), n)` is a pure function of `(L, n)`: the timestamp
(the only hidden state feeding these functions) does not influence the
result, so two separate evaluations agree byte for byte. -/
theorem c9_chunk_id_deterministic (now1 now2 : String) (u : String)
    (hu : u ≠ "") (page maxLen : Nat) :
    generate_chunk_id_from_base (generate_base_document_id now1 (some u) maxLen)
        page maxLen =
      generate_chunk_id_from_base (generate_base_document_id now2 (some u) maxLen)
        page maxLen := by
  have hd : u.data ≠ [] := by
    intro h
    apply hu
    cases u
    simp_all
  rw [base_id_time_independent now1 now2 u hd maxLen]

theorem c9_chunk_id_deterministic_witness :
    generate_chunk_id_from_base (generate_base_document_id "20240101_000000"
        (some "https://h/x") 1024) 2 1024 =
      generate_chunk_id_from_base (generate_base_document_id "20990101_000000"
        (some "https://h/x") 1024) 2 1024 :=
  c9_chunk_id_deterministic "20240101_000000" "20990101_000000" "https://h/x"
    (by decide) 2 1024

/-- C2 counterexample: with a failing structured LLM call (and a small
document, so the single-shot route is taken), `analyze_document_content`
returns the degraded analysis content but `analysis_status = "success"`,
contradicting the claim that the caller receives a failure status. -/
theorem c2_counterexample :
    (fun r => (r.analysis_status, r.summary, r.key_topics, r.document_type,
        r.published_date))
      (analyze_document_content (.ok ()) (fun _ => .error "boom")
        (fun s => .ok s) "doc" [1]) =
      ("success", some "Analysis failed", [], "Unknown", "00-00-0000") := rfl

/-- C2 (amended): when the structured LLM call fails, the single-shot
analyzer returns the degraded record (summary "Analysis failed", no
topics, type "Unknown", sentinel date), and `analyze_document_content`
on the single-shot route surfaces that degraded content — but with
`analysis_status = "success"`, not a failure status: the inner `except`
swallows the error before the status is chosen. -/
theorem c2_degraded_result_reported_as_success
    (llm : String → Except String LLMAnalysis) (mr : String → Except String String)
    (md : String) (toks : List Nat) (e : String)
    (hfail : llm md = .error e) (hsize : toks.sum < 100000) :
    generate_single_shot_analysis llm md = degradedAnalysis ∧
    analyze_document_content (.ok ()) llm mr md toks =
      ⟨toks.length, toks.sum, some "Analysis failed", [], "Unknown", "00-00-0000",
        "success", none⟩ := by
  have hd : generate_single_shot_analysis llm md = degradedAnalysis := by
    unfold generate_single_shot_analysis
    rw [hfail]
  refine ⟨hd, ?_⟩
  have hclean : _clean_summary_text "Analysis failed" = "Analysis failed" := by decide
  simp [analyze_document_content, hsize, hd, degradedAnalysis, hclean]

theorem c2_degraded_result_reported_as_success_witness :
    (fun _ => .error "boom" : String → Except String LLMAnalysis) "doc" =
        .error "boom" ∧
    ([1] : List Nat).sum < 100000 ∧
    (generate_single_shot_analysis (fun _ => .error "boom") "doc" = degradedAnalysis ∧
      analyze_document_content (.ok ()) (fun _ => .error "boom") (fun s => .ok s)
          "doc" [1] =
        ⟨1, 1, some "Analysis failed", [], "Unknown", "00-00-0000", "success", none⟩) :=
  ⟨rfl, by decide,
    c2_degraded_result_reported_as_success (fun _ => .error "boom") (fun s => .ok s)
      "doc" [1] "boom" rfl (by decide)⟩

/-- C3 counterexample: on `"'''x'''"` (three single quotes each side) the
sanitiser is not idempotent: one pass gives `"'x'"`, a second pass gives
`"x"`. -/
theorem c3_counterexample :
    _clean_summary_text (_clean_summary_text
        (String.mk [squote, squote, squote, 'x', squote, squote, squote])) ≠
      _clean_summary_text
        (String.mk [squote, squote, squote, 'x', squote, squote, squote]) := by
  decide

/-- C3 (amended): `_clean_summary_text` is idempotent on every string
containing none of the quote characters it manipulates (`"`, `“`, `”`,
`'`); on strings with nested matching quotes a second pass can strip a
further layer, so unrestricted idempotence fails. -/
theorem c3_sanitize_idempotent_on_quote_free (s : String)
    (h : noQuotes s.data = true) :
    _clean_summary_text (_clean_summary_text s) = _clean_summary_text s :=
  congrArg String.mk (cleanChars_idem h)

theorem c3_sanitize_idempotent_on_quote_free_witness :
    noQuotes "An  extractive summary.\n\n\n\nIt has lines.".data = true ∧
    _clean_summary_text (_clean_summary_text "An  extractive summary.\n\n\n\nIt has lines.") =
      _clean_summary_text "An  extractive summary.\n\n\n\nIt has lines." :=
  ⟨by decide,
    c3_sanitize_idempotent_on_quote_free "An  extractive summary.\n\n\n\nIt has lines."
      (by decide)⟩

/-- C6 counterexample: with `max_length = 5`, shorter than the chunk
suffix `"_chunk_1"`, the Python negative slice empties nothing it should
and the result `"doc_abcdef" → "doc_abc_chunk_1"` has length 15 > 5: the
claimed length bound fails. -/
theorem c6_counterexample :
    5 < (generate_chunk_id_from_base "doc_abcdef" 1 5).length := by decide

/-- C6 (amended): whenever the chunk suffix itself fits within
`max_length` (in particular for the production ceiling 1024), the result
is the concatenation of a prefix of the base with the intact suffix
`"_chunk_" ++ page`, and its length is at most `max_length`.  When
`max_length` is smaller than the suffix, the negative Python slice keeps
the intact suffix but the length bound fails. -/
theorem c6_truncation_keeps_suffix (base : String) (page maxLen : Nat)
    (h : ("_chunk_" ++ toString page).length ≤ maxLen) :
    ∃ b : List Char, b <+: base.data ∧
      (generate_chunk_id_from_base base page maxLen).data =
        b ++ ("_chunk_" ++ toString page).data ∧
      (generate_chunk_id_from_base base page maxLen).length ≤ maxLen := by
  unfold generate_chunk_id_from_base
  by_cases hlt : maxLen < (base ++ ("_chunk_" ++ toString page)).length
  · rw [if_pos hlt]
    refine ⟨pySliceTo base.data ((maxLen : Int) - ("_chunk_" ++ toString page).length),
      ?_, rfl, ?_⟩
    · unfold pySliceTo
      exact List.take_prefix _ _
    · have hstop : (0 : Int) ≤ (maxLen : Int) - ("_chunk_" ++ toString page).length := by
        omega
      show (pySliceTo base.data _ ++ ("_chunk_" ++ toString page).data).length ≤ maxLen
      rw [List.length_append]
      unfold pySliceTo
      rw [List.length_take]
      have hchunk : (("_chunk_" ++ toString page).data).length =
          ("_chunk_" ++ toString page).length := rfl
      rw [hchunk]
      have hif : ¬ ((maxLen : Int) - ("_chunk_" ++ toString page).length < 0) := by omega
      rw [if_neg hif]
      have : (min ((maxLen : Int) - ("_chunk_" ++ toString page).length)
          (base.data.length : Int)).toNat ≤ maxLen - ("_chunk_" ++ toString page).length := by
        omega
      omega
  · rw [if_neg hlt]
    exact ⟨base.data, List.prefix_refl _, rfl, by omega⟩

theorem c6_truncation_keeps_suffix_witness :
    ("_chunk_" ++ toString 3).length ≤ 20 ∧
    ∃ b : List Char, b <+: "doc_0123456789abcdef".data ∧
      (generate_chunk_id_from_base "doc_0123456789abcdef" 3 20).data =
        b ++ ("_chunk_" ++ toString 3).data ∧
      (generate_chunk_id_from_base "doc_0123456789abcdef" 3 20).length ≤ 20 :=
  ⟨by decide, c6_truncation_keeps_suffix "doc_0123456789abcdef" 3 20 (by decide)⟩

/-- C1 counterexample: a single page of 7501 tokens (over the 7500
ceiling) is assigned `batch_index = 1`, so the indices do not start
at 0. -/
theorem c1_counterexample :
    (group_pages_for_batch_embedding 7500 2000
        [{ document_id := "d", page_number := 1, markdown_content := "c",
           token_count := 7501, batch_index := 0 }]).map PageRec.batch_index =
      [1] := by decide

/-- C1 (amended): with a positive item ceiling, the batcher's output
indices are non-decreasing; they start at 0 whenever the first page's
own token count fits the ceiling (an over-limit first page opens batch 1
and batch 0 stays empty); no batch holds more than `maxItems` pages; and
a batch's token total exceeds `maxTok` only when that batch holds
exactly one (over-limit) page. -/
theorem c1_batching_invariants (maxTok maxItems : Nat) (pages : List PageRec)
    (hItems : 1 ≤ maxItems) :
    List.Chain' (· ≤ ·)
      ((group_pages_for_batch_embedding maxTok maxItems pages).map PageRec.batch_index) ∧
    (∀ p rest, pages = p :: rest → p.token_count ≤ maxTok →
      (group_pages_for_batch_embedding maxTok maxItems pages).head? =
        some { p with batch_index := 0 }) ∧
    (∀ k, cntAt k (group_pages_for_batch_embedding maxTok maxItems pages) ≤ maxItems) ∧
    (∀ k, sumAt k (group_pages_for_batch_embedding maxTok maxItems pages) ≤ maxTok ∨
      (cntAt k (group_pages_for_batch_embedding maxTok maxItems pages) = 1 ∧
        maxTok < sumAt k (group_pages_for_batch_embedding maxTok maxItems pages))) := by
  unfold group_pages_for_batch_embedding
  have hb := groupPagesGo_bounds maxTok maxItems pages 0 0 0 hItems (by omega)
    (Or.inl (by omega))
  refine ⟨groupPagesGo_chain maxTok maxItems pages 0 0 0, ?_, ?_, ?_⟩
  · intro p rest hpr hfit
    subst hpr
    rw [groupPagesGo]
    rw [if_neg (by omega)]
    rfl
  · intro k
    have h1 := (hb k).1
    split_ifs at h1 <;> omega
  · intro k
    have h1 := (hb k).1
    have h2 := (hb k).2
    by_cases hs : sumAt k (groupPagesGo maxTok maxItems 0 0 0 pages) ≤ maxTok
    · exact Or.inl hs
    · right
      rcases h2 with h2 | h2 <;> split_ifs at h2 <;> omega

theorem c1_batching_invariants_witness :
    (1 ≤ 2000) ∧
    (List.Chain' (· ≤ ·)
      ((group_pages_for_batch_embedding 7500 2000
        [{ document_id := "a", page_number := 1, markdown_content := "x",
           token_count := 4000, batch_index := 0 },
         { document_id := "b", page_number := 2, markdown_content := "y",
           token_count := 4000, batch_index := 0 }]).map PageRec.batch_index) ∧
    (∀ p rest,
      ([{ document_id := "a", page_number := 1, markdown_content := "x",
           token_count := 4000, batch_index := 0 },
         { document_id := "b", page_number := 2, markdown_content := "y",
           token_count := 4000, batch_index := 0 }] : List PageRec) = p :: rest →
      p.token_count ≤ 7500 →
      (group_pages_for_batch_embedding 7500 2000
        [{ document_id := "a", page_number := 1, markdown_content := "x",
           token_count := 4000, batch_index := 0 },
         { document_id := "b", page_number := 2, markdown_content := "y",
           token_count := 4000, batch_index := 0 }]).head? =
        some { p with batch_index := 0 }) ∧
    (∀ k, cntAt k (group_pages_for_batch_embedding 7500 2000
        [{ document_id := "a", page_number := 1, markdown_content := "x",
           token_count := 4000, batch_index := 0 },
         { document_id := "b", page_number := 2, markdown_content := "y",
           token_count := 4000, batch_index := 0 }]) ≤ 2000) ∧
    (∀ k, sumAt k (group_pages_for_batch_embedding 7500 2000
        [{ document_id := "a", page_number := 1, markdown_content := "x",
           token_count := 4000, batch_index := 0 },
         { document_id := "b", page_number := 2, markdown_content := "y",
           token_count := 4000, batch_index := 0 }]) ≤ 7500 ∨
      (cntAt k (group_pages_for_batch_embedding 7500 2000
        [{ document_id := "a", page_number := 1, markdown_content := "x",
           token_count := 4000, batch_index := 0 },
         { document_id := "b", page_number := 2, markdown_content := "y",
           token_count := 4000, batch_index := 0 }]) = 1 ∧
        7500 < sumAt k (group_pages_for_batch_embedding 7500 2000
        [{ document_id := "a", page_number := 1, markdown_content := "x",
           token_count := 4000, batch_index := 0 },
         { document_id := "b", page_number := 2, markdown_content := "y",
           token_count := 4000, batch_index := 0 }])))) :=
  ⟨by decide,
    c1_batching_invariants 7500 2000
      [{ document_id := "a", page_number := 1, markdown_content := "x",
         token_count := 4000, batch_index := 0 },
       { document_id := "b", page_number := 2, markdown_content := "y",
         token_count := 4000, batch_index := 0 }] (by decide)⟩

/-- C5: the indexing batcher returns batches whose order-preserving
concatenation is exactly the input; with a positive document ceiling,
every batch holds at most `maxDocs` documents, and a batch's estimated
byte total exceeds `maxBytes` only when it is a singleton whose one
document itself exceeds `maxBytes`. -/
theorem c5_chunking_invariants {α : Type} (size : α → Nat) (maxDocs maxBytes : Nat)
    (docs : List α) (hDocs : 1 ≤ maxDocs) :
    (chunk_documents_for_indexing size maxDocs maxBytes docs).flatten = docs ∧
    ∀ batch ∈ chunk_documents_for_indexing size maxDocs maxBytes docs,
      batch.length ≤ maxDocs ∧
      ((batch.map size).sum ≤ maxBytes ∨ ∃ d, batch = [d] ∧ maxBytes < size d) := by
  unfold chunk_documents_for_indexing
  constructor
  · simpa using chunkDocsGo_join size maxDocs maxBytes docs [] 0
  · exact chunkDocsGo_bounds size maxDocs maxBytes docs [] 0 hDocs (by simp)
      (by simp) (Or.inl (by simp))

theorem c5_chunking_invariants_witness :
    (1 ≤ 2) ∧
    ((chunk_documents_for_indexing (fun n : Nat => n) 2 10 [1, 2, 3, 4, 50]).flatten =
        [1, 2, 3, 4, 50] ∧
      ∀ batch ∈ chunk_documents_for_indexing (fun n : Nat => n) 2 10 [1, 2, 3, 4, 50],
        batch.length ≤ 2 ∧
        ((batch.map (fun n : Nat => n)).sum ≤ 10 ∨
          ∃ d, batch = [d] ∧ 10 < (fun n : Nat => n) d)) :=
  ⟨by decide, @c5_chunking_invariants Nat (fun n => n) 2 10 [1, 2, 3, 4, 50] (by decide)⟩

/-- The per-page content the splitter computes, without the
`batch_index` the final grouping pass assigns. -/
def pageCore (p : PageRec) : String × Nat × String × Nat :=
  (p.document_id, p.page_number, p.markdown_content, p.token_count)

/-- The batching pass only assigns `batch_index`; every other field and
the order of the records are untouched. -/
theorem groupPagesGo_map_core (maxTok maxItems : Nat) :
    ∀ (rest : List PageRec) (b tok items : Nat),
      (groupPagesGo maxTok maxItems b tok items rest).map pageCore =
        rest.map pageCore := by
  intro rest
  induction rest with
  | nil => intro b tok items; simp [groupPagesGo]
  | cons q rest ih =>
    intro b tok items
    rw [groupPagesGo]
    split <;> simp [pageCore, ih]

theorem buildPages_eq_enumFrom (tc : String → Nat) (base : String) :
    ∀ (ss : List (List Char)) (i : Nat),
      buildPages tc base i ss =
        (ss.enumFrom i).filterMap (fun p => sectionRecord tc base p.1 p.2) := by
  intro ss
  induction ss with
  | nil => intro i; simp [buildPages]
  | cons s ss ih =>
    intro i
    rw [buildPages]
    cases h : sectionRecord tc base i s <;>
      simp [h, List.enumFrom, List.filterMap_cons, ih]

/-- C4: modulo the final batch-index assignment (`pageCore` drops it),
the splitter's records are exactly the page-break sections enumerated by
split position, each kept iff it is non-empty after stripping and after
marker removal, with `page_number` from the section's `PageNumber`
marker when present and the 1-based split position otherwise; dropped
sections leave gaps in the fallback numbering. -/
theorem c4_page_splitter (tc : String → Nat) (now md : String) (url : Option String) :
    (split_markdown_by_pages tc now md url).map pageCore =
      ((splitOnSeq pageBreakDelim md.data.length md.data).enum).filterMap
        (fun p =>
          if pyStrip p.2 = [] then none
          else
            let pn := (findPageNum p.2).getD (p.1 + 1)
            let content := pyStrip (removeMarkers (pyStrip p.2).length (pyStrip p.2))
            if content = [] then none
            else
              some (generate_chunk_id_from_base
                  (generate_base_document_id now url 1024) pn 1024,
                pn, String.mk content, tc (String.mk content))) := by
  unfold split_markdown_by_pages group_pages_for_batch_embedding
  rw [groupPagesGo_map_core, buildPages_eq_enumFrom]
  show ((List.enumFrom 0 _).filterMap _).map pageCore = _
  rw [List.map_filterMap]
  refine List.filterMap_congr ?_
  intro p _
  unfold sectionRecord
  split
  · rfl
  · by_cases hc : pyStrip (removeMarkers (pyStrip p.2).length (pyStrip p.2)) = [] <;>
      simp [hc, pageCore]

/-- A successful `strptime` always carries a calendar-valid date. -/
theorem strptimeDate_valid (ord : DOrder) (sep : Char) (l : List Char)
    {y m d : Nat} (h : strptimeDate ord sep l = some (y, m, d)) :
    validDate y m d = true := by
  unfold strptimeDate at h
  rcases hf : strptimeFields ord sep l with _ | ⟨y0, m0, d0⟩
  · rw [hf] at h
    cases h
  · rw [hf] at h
    change (if validDate y0 m0 d0 then some (y0, m0, d0) else none) = some (y, m, d) at h
    split at h
    · rename_i hv
      simp only [Option.some.injEq, Prod.mk.injEq] at h
      obtain ⟨rfl, rfl, rfl⟩ := h
      exact hv
    · cases h

/-- Whatever the format list produces is a canonical rendering of a
calendar-valid date. -/
theorem tryFormatsGo_canonical (fs : List (DOrder × Char)) (l : List Char)
    {out : String} (h : tryFormatsGo fs l = some out) :
    ∃ y m d, validDate y m d = true ∧ out = fmtDate y m d := by
  induction fs with
  | nil => cases h
  | cons f rest ih =>
    rcases f with ⟨ord, sep⟩
    rw [tryFormatsGo] at h
    rcases hs : strptimeDate ord sep l with _ | ⟨y, m, d⟩
    · rw [hs] at h
      exact ih h
    · rw [hs] at h
      injection h with h2
      exact ⟨y, m, d, strptimeDate_valid ord sep l hs, h2.symm⟩

/-- C7 counterexample: `"2024-13-99Tx"` is passed through unchanged by
the ISO-prefix branch — the returned string is not a canonical ISO date
(month 13, day 99, no time), so the normalizer does not return only
`None` or canonical ISO strings. -/
theorem c7_counterexample :
    normalize_published_date_value (.vstr "2024-13-99Tx") = some "2024-13-99Tx" ∧
    isCanonicalIsoZ "2024-13-99Tx" = false := by decide

/-- C7 (amended): the four pinned values hold (`"00-00-0000" → none`,
`"2024-03-05" → "2024-03-05T00:00:00Z"`, `"03-05-2024" →
"2024-03-05T00:00:00Z"` month-first, `"not a date" → none`), and every
result is `none`, a canonically formatted calendar-valid date, or — in
the two `re.match` branches, which perform no calendar validation — the
stripped input passed through (possibly plus `"T00:00:00Z"`), which
need not be a well-formed date. -/
theorem c7_normalize_values_and_shape :
    normalize_published_date_value (.vstr "00-00-0000") = none ∧
    normalize_published_date_value (.vstr "2024-03-05") = some "2024-03-05T00:00:00Z" ∧
    normalize_published_date_value (.vstr "03-05-2024") = some "2024-03-05T00:00:00Z" ∧
    normalize_published_date_value (.vstr "not a date") = none ∧
    ∀ v : PyVal,
      normalize_published_date_value v = none ∨
      (∃ y m d, validDate y m d = true ∧
        normalize_published_date_value v = some (fmtDate y m d)) ∨
      (∃ l, isoPrefixT l = true ∧
        normalize_published_date_value v = some (String.mk l)) ∨
      (∃ l, isoDateOnly l = true ∧
        normalize_published_date_value v = some (String.mk l ++ "T00:00:00Z")) := by
  refine ⟨by decide, by decide, by decide, by decide, ?_⟩
  intro v
  cases v with
  | vnone => left; rfl
  | vother => left; rfl
  | vstr s =>
    simp only [normalize_published_date_value]
    split_ifs with h1 h2 h3 h4 h5
    · left; rfl
    · left; rfl
    · right; right; left
      exact ⟨pyStrip s.data, h3, rfl⟩
    · right; right; right
      exact ⟨pyStrip s.data, h4, rfl⟩
    · rcases ht : tryFormatsGo dateFormats (pyStrip s.data) with _ | out
      · rcases hs : strptimeDate .mdy '-' (pyStrip s.data) with _ | ⟨⟨y, m, d⟩⟩
        · left
          simp [ht, hs]
        · right; left
          refine ⟨y, m, d, strptimeDate_valid _ _ _ hs, ?_⟩
          simp [ht, hs]
      · right; left
        obtain ⟨y, m, d, hv, rfl⟩ := tryFormatsGo_canonical _ _ ht
        exact ⟨y, m, d, hv, by simp [ht]⟩
    · rcases ht : tryFormatsGo dateFormats (pyStrip s.data) with _ | out
      · left
        simp [ht]
      · right; left
        obtain ⟨y, m, d, hv, rfl⟩ := tryFormatsGo_canonical _ _ ht
        exact ⟨y, m, d, hv, by simp [ht]⟩

/-- C8 counterexample: the locators `"http://h/x;p"` and
`"http://h/x;p/"` differ only by a trailing slash on the path, yet
normalise differently (the trailing slash moves the `';'`-parameter
split) and receive different base ids. -/
theorem c8_counterexample :
    generate_base_document_id "t" (some "http://h/x;p") 1024 ≠
      generate_base_document_id "t" (some "http://h/x;p/") 1024 := by decide

/-- C8 (amended): for a non-empty lowercase locator of inert characters
(no whitespace or controls) containing none of `'#'`, `'?'`, `';'`,
appending a fragment or appending a trailing slash does not change the
base document id.  Locators carrying `';'` parameters refute the
unrestricted claim (see the counterexample). -/
theorem c8_base_id_fragment_slash_insensitive (now : String) (w f : List Char)
    (hsafe : ∀ c ∈ w, urlSafeChar c = true) (hne : w ≠ [])
    (hlower : pyLower w = w) (hhash : '#' ∉ w) (hq : '?' ∉ w) (hsemi : ';' ∉ w) :
    generate_base_document_id now (some (String.mk (w ++ '#' :: f))) 1024 =
      generate_base_document_id now (some (String.mk w)) 1024 ∧
    generate_base_document_id now (some (String.mk (w ++ ['/']))) 1024 =
      generate_base_document_id now (some (String.mk w)) 1024 := by
  have hdata : ∀ l : List Char, (String.mk l).data = l := fun _ => rfl
  have hstripR : pyStrip (pyLower w) = w := by
    rw [hlower]
    exact pyStrip_safe hne hsafe
  constructor
  · apply base_id_congr
    · rw [hdata]
      simp
    · rw [hdata]
      exact hne
    · rw [hdata, hdata]
      have hlowL : pyLower (w ++ '#' :: f) = w ++ '#' :: pyLower f := by
        unfold pyLower
        rw [List.map_append]
        rw [show List.map asciiLower ('#' :: f) = '#' :: List.map asciiLower f from rfl]
        rw [show List.map asciiLower w = w from hlower]
      have hstripL : pyStrip (pyLower (w ++ '#' :: f)) =
          w ++ '#' :: rstripP pyIsSpace (pyLower f) := by
        rw [hlowL]
        exact pyStrip_safe_append (pyLower f) hne hsafe (by decide)
      obtain ⟨e1, e2, e3, e4, e5⟩ :=
        urlparse_frag_insensitive w (rstripP pyIsSpace (pyLower f)) hne hsafe hhash
      simp only [normalizedUrlChars]
      rw [hstripL, hstripR, e1, e2, e3, e5]
  · apply base_id_congr
    · rw [hdata]
      simp
    · rw [hdata]
      exact hne
    · rw [hdata, hdata]
      have hlowL : pyLower (w ++ ['/']) = w ++ ['/'] := by
        unfold pyLower
        rw [List.map_append]
        rw [show List.map asciiLower (['/'] : List Char) = ['/'] from rfl]
        rw [show List.map asciiLower w = w from hlower]
      have hstripL : pyStrip (pyLower (w ++ ['/'])) = w ++ ['/'] := by
        rw [hlowL]
        have := pyStrip_safe_append ([] : List Char) hne hsafe
          (show pyIsSpace '/' = false by decide)
        simpa using this
      obtain ⟨e1, e2, e3, e4, e5⟩ :=
        urlparse_slash_insensitive w hne hsafe hhash hq hsemi
      simp only [normalizedUrlChars]
      rw [hstripL, hstripR, e1, e2, e3, e5]

theorem c8_base_id_fragment_slash_insensitive_witness :
    generate_base_document_id "ts"
        (some (String.mk ("https://h/x".data ++ '#' :: "sec2".data))) 1024 =
      generate_base_document_id "ts" (some (String.mk "https://h/x".data)) 1024 ∧
    generate_base_document_id "ts"
        (some (String.mk ("https://h/x".data ++ ['/']))) 1024 =
      generate_base_document_id "ts" (some (String.mk "https://h/x".data)) 1024 :=
  c8_base_id_fragment_slash_insensitive "ts" "https://h/x".data "sec2".data
    (by decide) (by decide) (by decide) (by decide) (by decide) (by decide)

end SPChat
